import Mathlib

/-!
Verification of the FlowDoc core (src/python/flowdoc.py) against its
natural-language specification.

The Python code is shallowly embedded: Python dicts become insertion-ordered
association lists with unique keys (`List (String × Value)`), Python strings
become `List Char` where character-level work is needed, Python exceptions
become `Except PyError`.  Python floats are modeled as exact decimal numbers
`m / 10 ^ e` (an `Int` significand and a `Nat` decimal exponent); CPython's
binary rounding, scientific-notation `str()` for very large/small magnitudes,
`inf`/`nan` literals, underscore digit grouping and non-ASCII digits are
outside the model.  All embedded definitions follow the source line by line;
comments cite the Python they translate.
-/

namespace FlowDoc

/-- Python's whitespace set for `str.strip` / `re` class `\s`
(ASCII portion: space, tab, newline, carriage return, vertical tab, form feed). -/
def isPySpace (c : Char) : Bool :=
  c = ' ' || c = '\t' || c = '\n' || c = '\r' || c = '\x0b' || c = '\x0c'

/-- Python `str.rstrip()`: remove the maximal trailing run of whitespace. -/
def pyRstrip : List Char → List Char
  | [] => []
  | c :: cs =>
    let r := pyRstrip cs
    if r = [] && isPySpace c then [] else c :: r

/-- Python `str.strip()`: remove leading and trailing whitespace. -/
def pyStrip (cs : List Char) : List Char :=
  pyRstrip (cs.dropWhile isPySpace)

/-- ASCII decimal digit test, Python `\d` (ASCII portion). -/
def isDigitC (c : Char) : Bool :=
  '0' ≤ c && c ≤ '9'

/-- The tree value union of the format (§3 of the spec): Boolean, Integer,
Float (modeled as exact decimal `m / 10 ^ e`), String, List, Mapping
(insertion-ordered association list). -/
inductive Value where
  | bool (b : Bool)
  | int (n : Int)
  | float (m : Int) (e : Nat)
  | nan
  | inf (neg : Bool)
  | str (s : String)
  | list (xs : List Value)
  | map (entries : List (String × Value))
deriving Repr

mutual

/-- Structural equality test for `Value` (Python `==` on these shapes). -/
def Value.beq : Value → Value → Bool
  | .bool a, .bool b => a = b
  | .int a, .int b => a = b
  | .float m e, .float m' e' => m = m' && e = e'
  | .nan, .nan => true
  | .inf a, .inf b => a = b
  | .str a, .str b => a = b
  | .list xs, .list ys => Value.beqList xs ys
  | .map xs, .map ys => Value.beqEntries xs ys
  | _, _ => false

/-- Elementwise equality of value lists. -/
def Value.beqList : List Value → List Value → Bool
  | [], [] => true
  | x :: xs, y :: ys => Value.beq x y && Value.beqList xs ys
  | _, _ => false

/-- Elementwise equality of key/value entry lists. -/
def Value.beqEntries : List (String × Value) → List (String × Value) → Bool
  | [], [] => true
  | (k, v) :: xs, (k', v') :: ys =>
      k = k' && Value.beq v v' && Value.beqEntries xs ys
  | _, _ => false

end

/-- Strong induction on the size of a `Value` (used throughout for the
nested-inductive recursions of the embedding). -/
theorem Value.sizeInd (P : Value → Prop)
    (h : ∀ v : Value, (∀ w : Value, sizeOf w < sizeOf v → P w) → P v) :
    ∀ v, P v := by
  intro v
  have : ∀ n, ∀ v : Value, sizeOf v ≤ n → P v := by
    intro n
    induction n with
    | zero => intro v hv; exact h v (fun w hw => absurd (Nat.lt_of_lt_of_le hw hv) (by omega))
    | succ n ih =>
      intro v hv
      exact h v (fun w hw => ih w (by omega))
  exact this (sizeOf v) v (Nat.le_refl _)

theorem Value.beqList_iff (xs ys : List Value)
    (h : ∀ x ∈ xs, ∀ b : Value, Value.beq x b = true ↔ x = b) :
    Value.beqList xs ys = true ↔ xs = ys := by
  induction xs generalizing ys with
  | nil => cases ys <;> simp [Value.beqList]
  | cons x xs ih =>
    cases ys with
    | nil => simp [Value.beqList]
    | cons y ys =>
      simp only [Value.beqList, Bool.and_eq_true]
      rw [h x (by simp), ih ys (fun z hz => h z (by simp [hz]))]
      simp

theorem Value.beqEntries_iff (xs ys : List (String × Value))
    (h : ∀ e ∈ xs, ∀ b : Value, Value.beq e.2 b = true ↔ e.2 = b) :
    Value.beqEntries xs ys = true ↔ xs = ys := by
  induction xs generalizing ys with
  | nil => cases ys <;> simp [Value.beqEntries]
  | cons x xs ih =>
    cases ys with
    | nil => simp [Value.beqEntries]
    | cons y ys =>
      obtain ⟨k, v⟩ := x
      obtain ⟨k', v'⟩ := y
      simp only [Value.beqEntries, Bool.and_eq_true, decide_eq_true_eq]
      rw [h (k, v) (by simp), ih ys (fun z hz => h z (by simp [hz]))]
      constructor
      · rintro ⟨⟨h1, h2⟩, h3⟩
        subst h3; subst h1
        rw [show v = v' from h2]
      · intro heq
        injection heq with hkv hrest
        injection hkv with hk hv
        exact ⟨⟨hk, hv⟩, hrest⟩

theorem Value.beq_iff : ∀ a b : Value, Value.beq a b = true ↔ a = b := by
  intro a
  induction a using Value.sizeInd with
  | h a ih =>
    intro b
    cases a <;> cases b <;>
      simp only [Value.beq, Bool.and_eq_true, decide_eq_true_eq, Value.bool.injEq,
        Value.int.injEq, Value.float.injEq, Value.inf.injEq, Value.str.injEq, Value.list.injEq,
        Value.map.injEq, iff_self, reduceCtorEq, iff_false, not_false_eq_true] <;>
      try trivial
    case list.list xs ys =>
      exact Value.beqList_iff xs ys (fun x hx b =>
        ih x (by
          have := List.sizeOf_lt_of_mem hx
          simp only [Value.list.sizeOf_spec]; omega) b)
    case map.map xs ys =>
      exact Value.beqEntries_iff xs ys (fun e he b =>
        ih e.2 (by
          have := List.sizeOf_lt_of_mem he
          have : sizeOf e.2 < sizeOf xs := by
            obtain ⟨k, v⟩ := e
            simp only [Prod.mk.sizeOf_spec] at this ⊢
            omega
          simp only [Value.map.sizeOf_spec]; omega) b)

instance : DecidableEq Value := fun a b =>
  decidable_of_iff (Value.beq a b = true) (Value.beq_iff a b)

instance {ε α : Type} [DecidableEq ε] [DecidableEq α] :
    DecidableEq (Except ε α) := fun a b =>
  match a, b with
  | .ok x, .ok y => if h : x = y then .isTrue (by rw [h]) else .isFalse (by simp [h])
  | .error x, .error y => if h : x = y then .isTrue (by rw [h]) else .isFalse (by simp [h])
  | .ok _, .error _ => .isFalse (by simp)
  | .error _, .ok _ => .isFalse (by simp)

/-! ### Decimal numerals

Python's `int()`, `float()` and `str()` on numbers, over `List Char`. -/

/-- Decimal digits of `n`, most significant first (`natDigits 0 = [0]`). -/
def natDigits (n : Nat) : List Nat :=
  if h : n < 10 then [n] else natDigits (n / 10) ++ [n % 10]
decreasing_by exact Nat.div_lt_self (by omega) (by omega)

/-- Value of a most-significant-first digit list. -/
def natOfDigits (ds : List Nat) : Nat :=
  ds.foldl (fun a d => a * 10 + d) 0

/-- The character for digit `d < 10`. -/
def digitChar (d : Nat) : Char := Char.ofNat (48 + d)

/-- The digit of a character (`'7'` ↦ `7`). -/
def charDigit (c : Char) : Nat := c.toNat - 48

/-- Python `str(n)` for a natural number. -/
def renderNat (n : Nat) : List Char := (natDigits n).map digitChar

/-- Python `str(n)` for an `int`. -/
def renderInt (m : Int) : List Char :=
  if m < 0 then '-' :: renderNat m.natAbs else renderNat m.natAbs

/-- Value of an all-digit character run. -/
def natOfChars (cs : List Char) : Nat := natOfDigits (cs.map charDigit)

/-- Python `int(v)` on a stripped string: optional sign then a nonempty
ASCII digit run (underscore grouping and non-ASCII digits not modeled). -/
def pyParseInt (cs : List Char) : Option Int :=
  match cs with
  | '-' :: rest =>
      if rest ≠ [] && rest.all isDigitC then some (-(natOfChars rest : Int)) else none
  | '+' :: rest =>
      if rest ≠ [] && rest.all isDigitC then some ((natOfChars rest : Int)) else none
  | _ =>
      if cs ≠ [] && cs.all isDigitC then some ((natOfChars cs : Int)) else none

/-- Normalize a decimal significand/exponent pair: strip factors of 10 from
the significand while the exponent is positive (so `(150, 2)`, i.e. `1.50`,
becomes `(15, 1)`, i.e. `1.5` — matching `str(float(...))` normalization). -/
def normFloat (m : Nat) : Nat → Nat × Nat
  | 0 => (m, 0)
  | e + 1 => if m % 10 = 0 then normFloat (m / 10) e else (m, e + 1)

/-- Sign-aware normalization of a modeled float. -/
def normPair (m : Int) (e : Nat) : Int × Nat :=
  let p := normFloat m.natAbs e
  (if m < 0 then -(p.1 : Int) else (p.1 : Int), p.2)

/-- Zero-pad a digit run on the left to width `w`. -/
def padZeros (w : Nat) (cs : List Char) : List Char :=
  List.replicate (w - cs.length) '0' ++ cs

/-- Python `str(x)` for a float modeled as `m / 10 ^ e`: the plain decimal
rendering with at least one digit on each side of the point
(`str(2.0) = "2.0"`, `str(0.05) = "0.05"`).  CPython's switch to scientific
notation for very large/small magnitudes is not modeled. -/
def renderFloat (m : Int) (e : Nat) : List Char :=
  let n := m.natAbs
  let body :=
    if e = 0 then renderNat n ++ ['.', '0']
    else renderNat (n / 10 ^ e) ++ '.' :: padZeros e (renderNat (n % 10 ^ e))
  if m < 0 then '-' :: body else body

/-- An optionally signed nonempty digit run (the exponent part of a float
literal). -/
def parseSignedDigits : List Char → Option Int
  | '-' :: ds =>
    if ds ≠ [] && ds.all isDigitC then some (-(natOfChars ds : Int)) else none
  | '+' :: ds =>
    if ds ≠ [] && ds.all isDigitC then some ((natOfChars ds : Int)) else none
  | ds =>
    if ds ≠ [] && ds.all isDigitC then some ((natOfChars ds : Int)) else none

/-- The text after the mantissa: empty, or `e`/`E` and a signed exponent. -/
def parseExpPart : List Char → Option Int
  | [] => some 0
  | 'e' :: r => parseSignedDigits r
  | 'E' :: r => parseSignedDigits r
  | _ => none

/-- Combine sign, mantissa digits value and decimal shift into the normalized
modeled float. -/
def finishFloat (neg : Bool) (m₀ : Nat) (shift : Int) : Int × Nat :=
  let p := if shift ≤ 0 then normFloat (m₀ * 10 ^ (-shift).toNat) 0
           else normFloat m₀ shift.toNat
  (if neg then -(p.1 : Int) else (p.1 : Int), p.2)

/-- The mantissa-and-exponent part of `float(v)` after the sign: digits, an
optional point with further digits (at least one digit overall), and an
optional exponent. -/
def pyParseFloatBody (neg : Bool) (cs₀ : List Char) : Option (Int × Nat) :=
  match cs₀.dropWhile isDigitC with
  | '.' :: r =>
    if cs₀.takeWhile isDigitC = [] && r.takeWhile isDigitC = [] then none
    else
      match parseExpPart (r.dropWhile isDigitC) with
      | none => none
      | some exp => some (finishFloat neg
          (natOfChars (cs₀.takeWhile isDigitC ++ r.takeWhile isDigitC))
          (((r.takeWhile isDigitC).length : Int) - exp))
  | r =>
    if cs₀.takeWhile isDigitC = [] then none
    else
      match parseExpPart r with
      | none => none
      | some exp => some (finishFloat neg (natOfChars (cs₀.takeWhile isDigitC))
          (0 - exp))

/-- Python `float(v)` on a stripped string: optional sign, digits with an
optional point (at least one digit overall), optional exponent part; the
result is normalized via `normFloat`.  `inf`/`nan` and underscore grouping
are not modeled. -/
def pyParseFloat (cs : List Char) : Option (Int × Nat) :=
  match cs with
  | '-' :: r => pyParseFloatBody true r
  | '+' :: r => pyParseFloatBody false r
  | _ => pyParseFloatBody false cs

/-- Lowercase an ASCII letter (Python `float()` accepts special forms
case-insensitively). -/
def asciiLower (c : Char) : Char :=
  if 'A' <= c && c <= 'Z' then Char.ofNat (c.toNat + 32) else c

/-- The special-form half of Python `float()` on already-stripped text: an
optional adjacent sign followed by `inf`, `infinity` or `nan` in any case,
yielding the non-finite float value (the sign of a NaN is dropped, as
`str(float('-nan')) == 'nan'`). -/
def pyFloatSpecialBody (neg : Bool) (cs : List Char) : Option Value :=
  if cs.map asciiLower = "inf".data || cs.map asciiLower = "infinity".data then
    some (.inf neg)
  else if cs.map asciiLower = "nan".data then some .nan
  else none

/-- Python `float()`'s acceptance of `nan`/`inf` forms (flowdoc.py line 62
`return float(v)` reaches these besides finite decimals). -/
def pyFloatSpecial (cs : List Char) : Option Value :=
  match cs with
  | '+' :: rest => pyFloatSpecialBody false rest
  | '-' :: rest => pyFloatSpecialBody true rest
  | _ => pyFloatSpecialBody false cs

/-- The Python exceptions the embedded code can raise.  `ParseFlow` raises
`IndexError` by indexing an empty frame stack; `_parse_typed_value` raises
`ValueError` (spec name: TypedValueError); `ParseFlowWithModel` raises
`ValueError("Model ... not found")`, kept as a separate constructor because it
plays the spec's ModelNotFoundError; `dict.get` on an unhashable key raises
`TypeError`.  `syntaxError` mirrors the SyntaxError of the spec's error
taxonomy; no embedded code path produces it. -/
inductive PyError where
  | indexError
  | valueError
  | typeError
  | syntaxError
  | modelNotFound (msg : String)
deriving Repr, DecidableEq

/-- Python `dict` assignment `d[k] = v`: replace in place if the key is
present (keeping its position), otherwise append. -/
def dictInsert (d : List (String × Value)) (k : String) (v : Value) :
    List (String × Value) :=
  if d.any (fun e => e.1 = k) then
    d.map (fun e => if e.1 = k then (k, v) else e)
  else
    d ++ [(k, v)]

/-- Python `dict.get(k)` / `k in d`. -/
def dictGet (d : List (String × Value)) (k : String) : Option Value :=
  (d.find? (fun e => e.1 = k)).map (fun e => e.2)

/-- Python `str.split(sep)` for a single-character separator:
`"a,,b"` splits into `["a", "", "b"]`, the empty string into `[""]`. -/
def splitOnChar (sep : Char) : List Char → List (List Char)
  | [] => [[]]
  | c :: rest =>
    match splitOnChar sep rest with
    | [] => [[c]]
    | p :: ps => if c = sep then [] :: p :: ps else (c :: p) :: ps

/-! ### Literal Parser (`_parse_value`, flowdoc.py lines 161-181) -/

/-- Body of `_parse_value`, with fuel for the recursion into list elements
(the fuel strictly exceeds the nesting depth whenever the wrapper
`_parse_value` is used, so the `0` guard is unreachable).  Resolution order as
in the source: `true`/`false`, quoted string (`re.match(r'^".*"$', v)` — the
interior may not contain a newline), bracketed list split on every top-level
comma, float if the text contains `'.'`, else int, else the text itself. -/
def parseValueAux : Nat → List Char → Value
  | 0, raw => .str (String.mk (pyStrip raw))
  | fuel + 1, raw =>
    let v := pyStrip raw
    if v = "true".data then .bool true
    else if v = "false".data then .bool false
    else if v.head? = some '"' && v.getLast? = some '"' && decide (2 ≤ v.length)
            && !(v.drop 1).dropLast.elem '\n' then
      .str (String.mk ((v.drop 1).dropLast))
    else if v.head? = some '[' && v.getLast? = some ']' && decide (2 ≤ v.length)
            && !(v.drop 1).dropLast.elem '\n' then
      let inner := pyStrip ((v.drop 1).dropLast)
      if inner = [] then .list []
      else .list ((splitOnChar ',' inner).map (fun p => parseValueAux fuel (pyStrip p)))
    else if v.elem '.' then
      match pyParseFloat v with
      | some me => .float me.1 me.2
      | none => .str (String.mk v)
    else
      match pyParseInt v with
      | some n => .int n
      | none => .str (String.mk v)

/-- `_parse_value(raw)`. -/
def _parse_value (raw : List Char) : Value :=
  parseValueAux (raw.length + 1) raw

/-! ### Line Tokenizer (`_tokenize_lines`, flowdoc.py lines 152-159) -/

/-- `_tokenize_lines(text)`: replace each tab by two spaces, split into
lines, truncate each line at the first `#`, keep the right-stripped line when
anything non-blank remains.  (Python `splitlines` also splits on `\r` and
some rarer separators; the model splits on `'\n'`.) -/
def _tokenize_lines (text : String) : List (List Char) :=
  let t := text.data.foldr (fun c acc => if c = '\t' then ' ' :: ' ' :: acc else c :: acc) []
  (splitOnChar '\n' t).filterMap (fun line =>
    let noComment := line.takeWhile (fun c => c ≠ '#')
    if pyStrip noComment ≠ [] then some (pyRstrip noComment) else none)

/-! ### Indentation-Tree Parser (`ParseFlow`, flowdoc.py lines 183-207)

The Python builds the tree through live dict references held in the frame
stack; since every insertion happens at the top frame after popping, a frame's
dict is always reachable from the root by the key path recorded at push time,
so frames are embedded as `(indent level, key path)` pairs. -/

/-- Insert `k ↦ v` into the mapping addressed by `path` (the frame's dict).
Frame paths always address mappings, so the non-mapping branch is
unreachable. -/
def insertAtPath (d : List (String × Value)) :
    List String → String → Value → List (String × Value)
  | [], k, v => dictInsert d k v
  | p :: ps, k, v =>
    d.map (fun e =>
      if e.1 = p then
        match e.2 with
        | .map sub => (p, .map (insertAtPath sub ps k v))
        | w => (p, w)
      else e)

/-- The body of `ParseFlow`'s line loop.  The stack is head-topmost; Python's
`while stack and stack[-1][0] >= indent: stack.pop()` is `dropWhile`, and
`stack[-1]` on the emptied stack is an `IndexError`. -/
def parseLines :
    List (List Char) → List (String × Value) → List (Nat × List String) →
    Except PyError (List (String × Value))
  | [], root, _ => .ok root
  | line :: rest, root, stack =>
    let leading := (line.takeWhile isPySpace).length
    let indent := leading / 2
    let trimmed := pyStrip line
    if trimmed.getLast? = some ':' then
      -- section header: key = trimmed[:-1].strip()
      let key := String.mk (pyStrip trimmed.dropLast)
      let stack' := stack.dropWhile (fun f => indent ≤ f.1)
      match stack' with
      | [] => .error .indexError
      | (_, path) :: _ =>
        parseLines rest (insertAtPath root path key (.map []))
          ((indent + 1, path ++ [key]) :: stack')
    else if trimmed.elem '=' then
      -- assignment: key, raw = trimmed.split('=', 1)
      let key := String.mk (pyStrip (trimmed.takeWhile (fun c => c ≠ '=')))
      let raw := pyStrip ((trimmed.dropWhile (fun c => c ≠ '=')).tail)
      let stack' := stack.dropWhile (fun f => indent < f.1)
      match stack' with
      | [] => .error .indexError
      | (_, path) :: _ =>
        parseLines rest (insertAtPath root path key (_parse_value raw)) stack'
    else
      parseLines rest root stack   -- any other line: continue

/-- `ParseFlow(text)`: root mapping or the raised exception. -/
def ParseFlow (text : String) : Except PyError (List (String × Value)) :=
  parseLines (_tokenize_lines text) [] [(0, [])]

/-! ### Stringifier (`_stringify_value`, `_stringify_object`, `StringifyFlow`,
flowdoc.py lines 209-234) -/

/-- `', '.join(...)`. -/
def joinComma : List (List Char) → List Char
  | [] => []
  | [x] => x
  | x :: y :: xs => x ++ ',' :: ' ' :: joinComma (y :: xs)

/-- `'\n'.join(...)`. -/
def joinNewline : List (List Char) → List Char
  | [] => []
  | [x] => x
  | x :: y :: xs => x ++ '\n' :: joinNewline (y :: xs)

mutual

/-- `_stringify_value(v)` — a string is quoted when it contains whitespace or
is empty; booleans render `true`/`false`; numbers via `str`; lists recurse;
the final branch (`return ''`) is the defensive fallback hit by mappings. -/
def _stringify_value : Value → List Char
  | .str s => if s.data.any isPySpace || s = "" then '"' :: (s.data ++ ['"']) else s.data
  | .bool b => if b then "true".data else "false".data
  | .int n => renderInt n
  | .float m e => renderFloat m e
  | .nan => "nan".data
  | .inf neg => if neg then "-inf".data else "inf".data
  | .list xs => '[' :: (joinComma (stringifyValues xs) ++ [']'])
  | .map _ => []

/-- Renders each list element (`', '.join(_stringify_value(x) for x in v)`). -/
def stringifyValues : List Value → List (List Char)
  | [] => []
  | x :: xs => _stringify_value x :: stringifyValues xs

end

/-- Indentation pad `' ' * indent`. -/
def pad (n : Nat) : List Char := List.replicate n ' '

mutual

/-- `_stringify_object(obj, indent)`: one line per scalar entry, and for each
mapping entry a `key:` line followed by the joined subtree as one element of
the `'\n'.join`. -/
def _stringify_object (d : List (String × Value)) (indent : Nat) : List Char :=
  joinNewline (objLines d indent)

/-- The `lines` list built by `_stringify_object`'s loop. -/
def objLines : List (String × Value) → Nat → List (List Char)
  | [], _ => []
  | (k, .map sub) :: rest, indent =>
    (pad indent ++ (k.data ++ [':'])) ::
      _stringify_object sub (indent + 2) :: objLines rest indent
  | (k, v) :: rest, indent =>
    (pad indent ++ (k.data ++ (' ' :: '=' :: ' ' :: _stringify_value v))) ::
      objLines rest indent

end

/-- `StringifyFlow(obj) = _stringify_object(obj, 0) + '\n'`. -/
def StringifyFlow (d : List (String × Value)) : String :=
  String.mk (_stringify_object d 0 ++ ['\n'])

/-! ### Mapping Model Support (flowdoc.py lines 16-147)

`ModelDefinition.fields` and `ModelRegistry.models` are string-keyed Python
dicts; `alias_map` is keyed by the alias value taken from the document, which
need not be a string (`field_spec.get("alias", full_name)` yields a `Value`),
so it is embedded as a `Value`-keyed association list.  Inserting an
unhashable key (a list or dict) raises `TypeError`. -/

/-- Generic Python-dict assignment for string-keyed dicts. -/
def assocInsert {α : Type} (d : List (String × α)) (k : String) (v : α) :
    List (String × α) :=
  if d.any (fun e => e.1 = k) then
    d.map (fun e => if e.1 = k then (k, v) else e)
  else
    d ++ [(k, v)]

/-- Generic Python `dict.get` for string-keyed dicts. -/
def assocGet {α : Type} (d : List (String × α)) (k : String) : Option α :=
  (d.find? (fun e => e.1 = k)).map (fun e => e.2)

/-- `alias_map[k] = v` (keys are alias values). -/
def aliasInsert (d : List (Value × String)) (k : Value) (v : String) :
    List (Value × String) :=
  if d.any (fun e => e.1 = k) then
    d.map (fun e => if e.1 = k then (k, v) else e)
  else
    d ++ [(k, v)]

/-- `alias_map.get(k)` for a string key `k` from the document. -/
def aliasGet (d : List (Value × String)) (k : Value) : Option String :=
  (d.find? (fun e => e.1 = k)).map (fun e => e.2)

/-- `FieldDefinition(full_name, alias, field_type="string", field_id=None)`. -/
structure FieldDefinition where
  full_name : String
  «alias» : Value
  field_type : Value
  field_id : Option Value
deriving Repr, DecidableEq

/-- `ModelDefinition(name)` with its two indexes. -/
structure ModelDefinition where
  name : String
  fields : List (String × FieldDefinition)
  alias_map : List (Value × String)
deriving Repr, DecidableEq

/-- `ModelRegistry`. -/
structure ModelRegistry where
  models : List (String × ModelDefinition)
deriving Repr, DecidableEq

/-- `ModelDefinition.add_field`: index the field under its full name, then
under its alias (raising `TypeError` for an unhashable alias value). -/
def ModelDefinition.add_field (m : ModelDefinition) (f : FieldDefinition) :
    Except PyError ModelDefinition :=
  let fs := assocInsert m.fields f.full_name f
  match f.«alias» with
  | .list _ => .error .typeError
  | .map _ => .error .typeError
  | a => .ok ⟨m.name, fs, aliasInsert m.alias_map a f.full_name⟩

/-- Python `str(value)` as applied by `_apply_model_to_dict` before typed
parsing.  Only scalars reach `str()` there (dict and list values are handled
by earlier branches), so the container cases are unreachable. -/
def pyStr : Value → List Char
  | .str s => s.data
  | .bool b => if b then "True".data else "False".data
  | .int n => renderInt n
  | .float m e => renderFloat m e
  | .nan => "nan".data
  | .inf neg => if neg then "-inf".data else "inf".data
  | .list _ => []
  | .map _ => []

/-- `re.match(r'^\d{4}-\d{2}-\d{2}$', v)` (full match; `\d` taken ASCII). -/
def matchesDate (cs : List Char) : Bool :=
  match cs with
  | [a, b, c, d, '-', e, f, '-', g, h] =>
    [a, b, c, d, e, f, g, h].all isDigitC
  | _ => false

/-- `re.match(r'^\d{4}-\d{2}-\d{2}T\d{2}:\d{2}:\d{2}', v)` (prefix match). -/
def matchesDatetimePrefix (cs : List Char) : Bool :=
  match cs with
  | a :: b :: c :: d :: '-' :: e :: f :: '-' :: g :: h :: 'T' ::
      i :: j :: ':' :: k :: l :: ':' :: m :: n :: _ =>
    [a, b, c, d, e, f, g, h, i, j, k, l, m, n].all isDigitC
  | _ => false

/-- `_parse_typed_value(raw, field_type)` (flowdoc.py lines 47-80): strict
typed parsing for `bool`/`int`/`float`/`date`/`datetime`, and for every other
declared type the string behavior — strip one layer of surrounding quotes if
present.  The declared type is a `Value` because model extraction reads it
from the document. -/
def _parse_typed_value (raw : List Char) (field_type : Value) :
    Except PyError Value :=
  let v := pyStrip raw
  if field_type = .str "bool" then
    if v = "true".data then .ok (.bool true)
    else if v = "false".data then .ok (.bool false)
    else .error .valueError
  else if field_type = .str "int" then
    match pyParseInt v with
    | some n => .ok (.int n)
    | none => .error .valueError
  else if field_type = .str "float" then
    match pyFloatSpecial v with
    | some w => .ok w
    | none =>
      match pyParseFloat v with
      | some p => .ok (.float p.1 p.2)
      | none => .error .valueError
  else if field_type = .str "date" then
    if matchesDate v then .ok (.str (String.mk v)) else .error .valueError
  else if field_type = .str "datetime" then
    if matchesDatetimePrefix v then .ok (.str (String.mk v)) else .error .valueError
  else
    if v.head? = some '"' && v.getLast? = some '"' then
      .ok (.str (String.mk ((v.drop 1).dropLast)))
    else
      .ok (.str (String.mk v))

/-- The inner field loop of `_extract_models_from_dict`: non-dict field specs
are skipped; `alias` defaults to the full name, `type` to `"string"`. -/
def buildFields (m : ModelDefinition) :
    List (String × Value) → Except PyError ModelDefinition
  | [] => .ok m
  | (full_name, fspec) :: rest =>
    match fspec with
    | .map fd =>
      match m.add_field ⟨full_name, (dictGet fd "alias").getD (.str full_name),
          (dictGet fd "type").getD (.str "string"), dictGet fd "id"⟩ with
      | .error e => .error e
      | .ok m' => buildFields m' rest
    | _ => buildFields m rest

/-- The outer model loop of `_extract_models_from_dict`: an entry is
registered only when it is a dict with a `fields` key that is itself a dict;
otherwise it is skipped. -/
def extractModelsLoop (reg : ModelRegistry) :
    List (String × Value) → Except PyError ModelRegistry
  | [] => .ok reg
  | (model_name, model_spec) :: rest =>
    match model_spec with
    | .map spec =>
      match dictGet spec "fields" with
      | some (.map fieldsData) =>
        match buildFields ⟨model_name, [], []⟩ fieldsData with
        | .error e => .error e
        | .ok md => extractModelsLoop ⟨assocInsert reg.models model_name md⟩ rest
      | some _ => extractModelsLoop reg rest
      | none => extractModelsLoop reg rest
    | _ => extractModelsLoop reg rest

/-- `_extract_models_from_dict(data)` (flowdoc.py lines 82-116): `None` when
there is no `$models` key or it is not a dict. -/
def _extract_models_from_dict (data : List (String × Value)) :
    Except PyError (Option ModelRegistry) :=
  match dictGet data "$models" with
  | none => .ok none
  | some (.map models_data) =>
    match extractModelsLoop ⟨[]⟩ models_data with
    | .error e => .error e
    | .ok reg => .ok (some reg)
  | some _ => .ok none

/-- The scalar try/except of `_apply_model_to_dict` (flowdoc.py lines
137-145): typed parsing of `str(value)`, falling back to the original value
on `ValueError`/`TypeError`. -/
def coerceScalar (fd : FieldDefinition) (v : Value) : Value :=
  match _parse_typed_value (pyStr v) fd.field_type with
  | .ok w => w
  | .error _ => v

/-- `model.alias_map.get(key, key)`. -/
def resolveKey (model : ModelDefinition) (key : String) : String :=
  (aliasGet model.alias_map (.str key)).getD key

mutual

/-- `_apply_model_to_dict(data, model)` (flowdoc.py lines 118-147). -/
def _apply_model_to_dict (model : ModelDefinition)
    (data : List (String × Value)) : List (String × Value) :=
  applyGo model [] data

/-- The entry loop of `_apply_model_to_dict`, carrying the `result` dict. -/
def applyGo (model : ModelDefinition) (result : List (String × Value)) :
    List (String × Value) → List (String × Value)
  | [] => result
  | (key, v) :: rest =>
    applyGo model
      (dictInsert result (resolveKey model key) (applyEntryValue model key v))
      rest

/-- The per-value transform of `_apply_model_to_dict`: recurse into dicts and
into dict items of lists; for a scalar with a field definition at the
resolved name, attempt typed parsing via `coerceScalar`. -/
def applyEntryValue (model : ModelDefinition) (key : String) : Value → Value
  | .map sub => .map (_apply_model_to_dict model sub)
  | .list xs => .list (applyItems model xs)
  | v =>
    match assocGet model.fields (resolveKey model key) with
    | some fd => coerceScalar fd v
    | none => v

/-- List items that are dicts are transformed; other items pass through. -/
def applyItems (model : ModelDefinition) : List Value → List Value
  | [] => []
  | .map sub :: rest => .map (_apply_model_to_dict model sub) :: applyItems model rest
  | x :: rest => x :: applyItems model rest

end

/-- The per-top-level-value rule of `ParseFlowWithModel`: apply the engine to
dict values and to dict items of list values; scalars pass through. -/
def applyTopValue (model : ModelDefinition) : Value → Value
  | .map sub => .map (_apply_model_to_dict model sub)
  | .list xs => .list (applyItems model xs)
  | v => v

/-- The registry-resolution step of `ParseFlowWithModel` (flowdoc.py lines
261-305): use the supplied registry, else extract one from the parsed data. -/
def resolveRegistryStep (registry : Option ModelRegistry)
    (data : List (String × Value)) : Except PyError (Option ModelRegistry) :=
  match registry with
  | some r => .ok (some r)
  | none => _extract_models_from_dict data

/-- The body of `ParseFlowWithModel` after parsing and registry resolution:
the `if registry and "use_model" in data` branch applies the looked-up model
(stripping both reserved keys first); otherwise the raw tree is returned with
`$models` stripped if present. -/
def withModelResult (reg? : Option ModelRegistry)
    (data : List (String × Value)) : Except PyError (List (String × Value)) :=
  match reg?, dictGet data "use_model" with
  | some reg, some useVal =>
    match useVal with
    | .list _ => .error .typeError
    | .map _ => .error .typeError
    | _ =>
      match (match useVal with
             | .str s => assocGet reg.models s
             | _ => none) with
      | none => .error (.modelNotFound (String.mk (pyStr useVal)))
      | some model =>
        let result := data.filter
          (fun e => !(e.1 == "use_model" || e.1 == "$models"))
        .ok (result.map (fun e => (e.1, applyTopValue model e.2)))
  | _, _ =>
    if (dictGet data "$models").isSome then
      .ok (data.filter (fun e => !(e.1 == "$models")))
    else
      .ok data

/-- `ParseFlowWithModel(text, registry)` (flowdoc.py lines 261-305): parse,
resolve the registry (extracting one when none is supplied — the lookup of a
`use_model` naming an unhashable value raises `TypeError`, an unknown name
raises the model-not-found `ValueError`), then produce the final tree via
`withModelResult`. -/
def ParseFlowWithModel (text : String) (registry : Option ModelRegistry) :
    Except PyError (List (String × Value)) :=
  match ParseFlow text with
  | .error e => .error e
  | .ok data =>
    match resolveRegistryStep registry data with
    | .error e => .error e
    | .ok reg? => withModelResult reg? data

/-! ### Predicates used by the amended claims C7 and C9 -/

/-- Every Mapping value is nonempty, recursively (the condition under which
the stringifier emits no empty join element). -/
def noEmptyMapValues : List (String × Value) → Bool
  | [] => true
  | (_, .map sub) :: rest =>
    !sub.isEmpty && noEmptyMapValues sub && noEmptyMapValues rest
  | _ :: rest => noEmptyMapValues rest

/-- A rendered line is nonempty and does not end in a newline. -/
def GoodLine (l : List Char) : Prop :=
  l ≠ [] ∧ ∀ c, l.getLast? = some c → c ≠ '\n'

/-! ### Claim C7: stability predicates -/

/-- The default (string) branch of `_parse_typed_value` as a function on the
raw text: strip, then remove one layer of surrounding quotes when present. -/
def strCoerce (s : List Char) : List Char :=
  if (pyStrip s).head? = some '"' && (pyStrip s).getLast? = some '"' then
    ((pyStrip s).drop 1).dropLast
  else pyStrip s

/-- Declared field types handled by the default (string) branch of
`_parse_typed_value` — anything but the five recognized type names. -/
def fieldStringish (ft : Value) : Bool :=
  !(ft = Value.str "bool" || ft = Value.str "int" || ft = Value.str "float" ||
    ft = Value.str "date" || ft = Value.str "datetime")

mutual

/-- Hypotheses under which a second model application is a no-op in the
program: every key is already canonical (it resolves to itself) and keys are
distinct, at every nesting level; every string value sitting at a field of
string-like declared type is stable under one more pass of `strCoerce`
(rules out doubly-quoted strings); and no NaN float or NaN-denoting string
sits at a float-typed field (Python re-coerces those to a fresh `nan`, and
`nan != nan`, so the second application's output compares unequal even
though it is structurally identical — the exclusion keeps equality of the
embedding aligned with Python `==`). -/
def treeStable (m : ModelDefinition) : List (String × Value) → Bool
  | [] => true
  | (k, v) :: rest =>
    decide (resolveKey m k = k) && !(rest.any (fun e => e.1 = k)) &&
      valStable m k v && treeStable m rest

/-- Per-value part of `treeStable`. -/
def valStable (m : ModelDefinition) (k : String) : Value → Bool
  | .map sub => treeStable m sub
  | .list xs => listStable m xs
  | .str s =>
    match assocGet m.fields (resolveKey m k) with
    | some fd =>
      if fd.field_type = Value.str "float" then
        decide (pyFloatSpecial (pyStrip s.data) ≠ some Value.nan)
      else
        !(fieldStringish fd.field_type) ||
          decide (strCoerce (strCoerce s.data) = strCoerce s.data)
    | none => true
  | .bool _ => true
  | .int _ => true
  | .float _ _ => true
  | .nan =>
    match assocGet m.fields (resolveKey m k) with
    | some fd => decide (fd.field_type ≠ Value.str "float")
    | none => true
  | .inf _ => true

/-- Per-item part of `treeStable` for list values: only dict items are
transformed by the engine, so only they carry a condition. -/
def listStable (m : ModelDefinition) : List Value → Bool
  | [] => true
  | .map sub :: rest => treeStable m sub && listStable m rest
  | .bool _ :: rest => listStable m rest
  | .int _ :: rest => listStable m rest
  | .float _ _ :: rest => listStable m rest
  | .nan :: rest => listStable m rest
  | .inf _ :: rest => listStable m rest
  | .str _ :: rest => listStable m rest
  | .list _ :: rest => listStable m rest

end

/-! ### Concrete fixtures used by several claims -/

/-- A model `person` with one field `full_name="name"`, `alias="n"`,
type `string` — the model of the spec's alias-resolution example. -/
def personModel : ModelDefinition :=
  ⟨"person", [("name", ⟨"name", .str "n", .str "string", none⟩)], [(.str "n", "name")]⟩

/-- A registry holding only `personModel`. -/
def personRegistry : ModelRegistry := ⟨[("person", personModel)]⟩

/-- A model with one field `full_name="age"`, `alias="a"`, type `int`. -/
def ageModel : ModelDefinition :=
  ⟨"m", [("age", ⟨"age", .str "a", .str "int", none⟩)], [(.str "a", "age")]⟩

/-- A model with one float-typed field `x`, key self-aliased. -/
def floatModel : ModelDefinition :=
  ⟨"m", [("x", ⟨"x", .str "x", .str "float", none⟩)], [(.str "x", "x")]⟩

/-! ### Claims C1-C3: the section-header stack pop

For a section header the source pops with `stack[-1][0] >= indent`
(flowdoc.py line 195).  The root frame has indent level 0, so a section
header at indent 0 pops it too, and line 197's `stack[-1][1][key] = obj`
indexes an empty list: `IndexError`, on the very inputs the spec presents as
working (including the module's own `__main__` self-test, whose first line is
the top-level header `app:`). -/

/-- C1: the spec's indentation-nesting example
(lines `a:`, two-space-indented `b:`, `c = 1`, `d = 2`) is claimed to parse
to the nested mapping; the code instead raises IndexError at the first line,
because the header pop empties the frame stack.  (code_bug evidence) -/
theorem c1_indentation_nesting_crash :
    ParseFlow "a:\n  b:\n    c = 1\n  d = 2" = .error .indexError := by
  rfl

/-- C2: the claim says ParseFlow returns the root mapping or raises
SyntaxError, the header pop always leaving a top frame.  On the one-line
document `a:` the pop removes the root frame and the code raises IndexError —
which is not a SyntaxError and not a return.  (code_bug evidence) -/
theorem c2_header_pop_empties_stack :
    ParseFlow "a:" = .error .indexError ∧
      PyError.indexError ≠ PyError.syntaxError := by
  exact ⟨by rfl, by decide⟩

/-- C3: the round-trip claim `Parse(Stringify(t)) = t` fails already for the
two-level tree `a ↦ (b ↦ 1)`: `Stringify` renders `a:\n  b = 1\n`, whose
first line is a top-level section header, so `Parse` raises IndexError
instead of returning `t`.  (code_bug evidence) -/
theorem c3_roundtrip_crash :
    ParseFlow (StringifyFlow [("a", Value.map [("b", Value.int 1)])])
      = .error .indexError ∧
    ParseFlow (StringifyFlow [("a", Value.map [("b", Value.int 1)])])
      ≠ .ok [("a", Value.map [("b", Value.int 1)])] := by
  have hs : StringifyFlow [("a", Value.map [("b", Value.int 1)])] = "a:\n  b = 1\n" := by
    simp [StringifyFlow, _stringify_object, objLines, joinNewline, pad,
      _stringify_value, renderInt, renderNat, natDigits, digitChar]
  rw [hs]
  exact ⟨by rfl, by decide⟩

/-! ### Claim C6: alias resolution -/

/-- C6: under a model with field `full_name="name"`, `alias="n"`, a mapping
holding the assignment `n = "X"` is rewritten to `name = "X"`: directly by
the Model Application Engine, and through the full `ParseFlowWithModel`
pipeline on a document whose section carries the assignment. -/
theorem c6_alias_resolution :
    _apply_model_to_dict personModel [("n", .str "X")] = [("name", .str "X")] ∧
    ParseFlowWithModel "use_model = person\n  rec:\n    n = \"X\"" (some personRegistry)
      = .ok [("rec", Value.map [("name", Value.str "X")])] := by
  constructor
  · simp [_apply_model_to_dict, applyGo, applyEntryValue, coerceScalar, resolveKey,
      aliasGet, assocGet, _parse_typed_value, pyStr, pyStrip, pyRstrip, isPySpace,
      dictInsert, personModel]
  · have h1 : ParseFlow "use_model = person\n  rec:\n    n = \"X\""
        = .ok [("use_model", .str "person"), ("rec", .map [("n", .str "X")])] := by rfl
    simp only [ParseFlowWithModel, h1]
    simp [resolveRegistryStep, withModelResult, dictGet, assocGet,
      personRegistry, personModel, applyTopValue,
      _apply_model_to_dict, applyGo, applyEntryValue, coerceScalar, resolveKey,
      aliasGet, _parse_typed_value, pyStr, pyStrip, pyRstrip, isPySpace, dictInsert]

/-! ### Claim C9: trailing newline of `StringifyFlow` -/

/-- C9 counterexample: for the mapping whose single value is an empty nested
mapping, the empty subtree contributes an empty element to the `'\n'.join`,
so the output is `"a:\n\n"` — it ends with two newlines, not exactly one. -/
theorem c9_empty_section_two_newlines :
    StringifyFlow [("a", Value.map [])] = "a:\n\n" ∧
    (StringifyFlow [("a", Value.map [])]).data.dropLast.getLast? = some '\n' := by
  have h : StringifyFlow [("a", Value.map [])] = "a:\n\n" := by
    simp [StringifyFlow, _stringify_object, objLines, joinNewline, pad]
  exact ⟨h, by rw [h]; rfl⟩

/-! ### Claim C4: stripping of the reserved keys -/

/-- C4 counterexample: with no supplied registry and no `$models` block,
extraction yields no registry, the `use_model` branch is not entered
(`if registry and "use_model" in data`), and the raw tree is returned with
its `use_model` key intact — the reserved key is not stripped on this
non-error return path. -/
theorem c4_use_model_survives :
    ParseFlowWithModel "use_model = x" none = .ok [("use_model", Value.str "x")] ∧
    dictGet [("use_model", Value.str "x")] "use_model" = some (Value.str "x") :=
  ⟨by rfl, by rfl⟩

/-- A dict lookup misses exactly when no entry carries the key. -/
theorem dictGet_none_iff (d : List (String × Value)) (k : String) :
    dictGet d k = none ↔ ∀ e ∈ d, e.1 ≠ k := by
  unfold dictGet
  simp [List.find?_eq_none]

/-- Unfolding a dict lookup over a cons cell. -/
theorem dictGet_cons (e : String × Value) (d : List (String × Value)) (k : String) :
    dictGet (e :: d) k = if e.1 = k then some e.2 else dictGet d k := by
  unfold dictGet
  rw [List.find?_cons]
  by_cases hk : e.1 = k
  · simp [hk]
  · simp [hk]

/-- Filtering away one key leaves lookups of other keys unchanged. -/
theorem dictGet_filter_ne (d : List (String × Value)) (k bad : String)
    (hne : k ≠ bad) :
    dictGet (d.filter (fun e => !(e.1 == bad))) k = dictGet d k := by
  induction d with
  | nil => rfl
  | cons e rest ih =>
    by_cases hb : e.1 = bad
    · rw [List.filter_cons_of_neg (by simp [hb]), ih, dictGet_cons,
        if_neg (by rw [hb]; exact fun hh => hne hh.symm)]
    · rw [List.filter_cons_of_pos (by simp [hb]), dictGet_cons, dictGet_cons, ih]

/-- The no-model return branch of `ParseFlowWithModel`: the result has no
`$models` key and its `use_model` lookup equals the input's. -/
theorem stripBranch_ok (data d : List (String × Value))
    (h : (if (dictGet data "$models").isSome then
            Except.ok (ε := PyError) (data.filter (fun e => !(e.1 == "$models")))
          else .ok data) = .ok d) :
    dictGet d "$models" = none ∧ dictGet d "use_model" = dictGet data "use_model" := by
  split at h
  · injection h with h
    subst h
    constructor
    · rw [dictGet_none_iff]
      intro e he
      have := (List.mem_filter.mp he).2
      simpa using this
    · exact dictGet_filter_ne data "use_model" "$models" (by decide)
  · injection h with h
    subst h
    refine ⟨?_, rfl⟩
    rename_i hm
    rcases hdm : dictGet data "$models" with _ | v
    · rfl
    · rw [hdm] at hm; simp at hm

/-- Every successful `withModelResult` output lacks `$models`, and lacks
`use_model` whenever a registry was available. -/
theorem withModelResult_ok (reg? : Option ModelRegistry)
    (data d : List (String × Value))
    (h : withModelResult reg? data = .ok d) :
    dictGet d "$models" = none ∧
      (reg?.isSome = true → dictGet d "use_model" = none) := by
  cases hu : dictGet data "use_model" with
  | none =>
    unfold withModelResult at h
    rw [hu] at h
    cases reg? with
    | none =>
      have := stripBranch_ok data d (by exact h)
      exact ⟨this.1, fun hs => by simp at hs⟩
    | some reg =>
      have := stripBranch_ok data d (by exact h)
      exact ⟨this.1, fun _ => this.2.trans hu⟩
  | some useVal =>
    unfold withModelResult at h
    rw [hu] at h
    cases reg? with
    | none =>
      have := stripBranch_ok data d (by exact h)
      exact ⟨this.1, fun hs => by simp at hs⟩
    | some reg =>
      cases useVal with
      | list xs => exact Except.noConfusion h
      | map es => exact Except.noConfusion h
      | bool b => exact Except.noConfusion h
      | int n => exact Except.noConfusion h
      | float m e => exact Except.noConfusion h
      | nan => exact Except.noConfusion h
      | inf neg => exact Except.noConfusion h
      | str s =>
        have h' : (match assocGet reg.models s with
            | none => Except.error (PyError.modelNotFound (String.mk (pyStr (Value.str s))))
            | some model =>
              Except.ok ((data.filter
                  (fun e : String × Value => !(e.1 == "use_model" || e.1 == "$models"))).map
                (fun e : String × Value => (e.1, applyTopValue model e.2)))) = .ok d := h
        rcases hlook : assocGet reg.models s with _ | model
        · rw [hlook] at h'
          exact Except.noConfusion h'
        · rw [hlook] at h'
          injection h' with h'
          subst h'
          have hd : ∀ e ∈ (data.filter
                (fun e : String × Value => !(e.1 == "use_model" || e.1 == "$models"))).map
                (fun e : String × Value => (e.1, applyTopValue model e.2)),
              e.1 ≠ "$models" ∧ e.1 ≠ "use_model" := by
            intro e he
            simp only [List.mem_map] at he
            obtain ⟨x, hx, rfl⟩ := he
            have := (List.mem_filter.mp hx).2
            simp only [Bool.not_eq_true', Bool.or_eq_false_iff, beq_eq_false_iff_ne] at this
            exact ⟨this.2, this.1⟩
          exact ⟨(dictGet_none_iff _ _).mpr (fun e he => (hd e he).1),
                 fun _ => (dictGet_none_iff _ _).mpr (fun e he => (hd e he).2)⟩

/-- C4 amended: every mapping returned by `ParseFlowWithModel` is free of
the reserved key `$models`; it is free of `use_model` as well provided a
registry is available (supplied, or extracted from the parsed tree).  The
unamended claim fails when no registry exists: `use_model` then survives
(see the counterexample). -/
theorem c4_reserved_keys_stripped (text : String)
    (registry : Option ModelRegistry) (d : List (String × Value))
    (h : ParseFlowWithModel text registry = .ok d) :
    dictGet d "$models" = none ∧
      ((registry.isSome = true ∨
          ∀ b, ParseFlow text = .ok b → _extract_models_from_dict b ≠ .ok none) →
        dictGet d "use_model" = none) := by
  unfold ParseFlowWithModel at h
  cases hp : ParseFlow text with
  | error e => rw [hp] at h; exact Except.noConfusion h
  | ok data =>
    rw [hp] at h
    have h2 : (match resolveRegistryStep registry data with
        | Except.error e => Except.error e
        | Except.ok reg? => withModelResult reg? data) = Except.ok d := h
    cases hr : resolveRegistryStep registry data with
    | error e => rw [hr] at h2; exact Except.noConfusion h2
    | ok reg? =>
      rw [hr] at h2
      have main := withModelResult_ok reg? data d h2
      refine ⟨main.1, fun hav => main.2 ?_⟩
      cases hreg : registry with
      | some r =>
        rw [hreg] at hr
        unfold resolveRegistryStep at hr
        injection hr with hr
        rw [← hr]
        rfl
      | none =>
        rw [hreg] at hr
        unfold resolveRegistryStep at hr
        cases hav with
        | inl hs => rw [hreg] at hs; exact absurd hs (by simp)
        | inr hall =>
          have hne := hall data rfl
          cases reg? with
          | none => exact absurd hr hne
          | some r => rfl

/-- Witness for C4 amended at a concrete input with a supplied registry. -/
theorem c4_reserved_keys_stripped_witness :
    ParseFlowWithModel "k = 1" (some personRegistry) = .ok [("k", Value.int 1)] ∧
    dictGet [("k", Value.int 1)] "$models" = none ∧
    dictGet [("k", Value.int 1)] "use_model" = none := by
  have h : ParseFlowWithModel "k = 1" (some personRegistry)
      = .ok [("k", Value.int 1)] := by rfl
  have main := c4_reserved_keys_stripped "k = 1" (some personRegistry) [("k", Value.int 1)] h
  exact ⟨h, main.1, main.2 (Or.inl rfl)⟩


/-! ### Claims C5 and C8: error propagation and coercion fallback -/

/-- Typed parsing with declared type `int` fails on text that is not a valid
integer. -/
theorem parse_typed_int_bad (raw : List Char)
    (hbad : pyParseInt (pyStrip raw) = none) :
    _parse_typed_value raw (.str "int") = .error .valueError := by
  unfold _parse_typed_value
  rw [if_neg (by decide), if_pos rfl, hbad]

/-- C5: whenever the parsed tree carries `use_model` naming a model `s` that
the available registry (supplied or extracted) does not contain,
`ParseFlowWithModel` propagates the model-not-found error (a `ValueError` in
the source, playing the spec's ModelNotFoundError) and returns no mapping at
all. -/
theorem c5_unknown_model_raises (text : String) (registry : Option ModelRegistry)
    (data : List (String × Value)) (r : ModelRegistry) (s : String)
    (hparse : ParseFlow text = .ok data)
    (hreg : resolveRegistryStep registry data = .ok (some r))
    (huse : dictGet data "use_model" = some (.str s))
    (hlook : assocGet r.models s = none) :
    ParseFlowWithModel text registry = .error (.modelNotFound s) := by
  unfold ParseFlowWithModel withModelResult
  simp only [hparse, hreg, huse, hlook, pyStr]

/-- Witness for C5 at a concrete unknown model name. -/
theorem c5_unknown_model_raises_witness :
    ParseFlowWithModel "use_model = ghost" (some personRegistry)
      = .error (.modelNotFound "ghost") :=
  c5_unknown_model_raises "use_model = ghost" (some personRegistry)
    [("use_model", .str "ghost")] personRegistry "ghost"
    (by rfl) (by rfl) (by rfl) (by rfl)

/-- C8: for a field declared `type=int` and any scalar value whose text does
not parse as an integer, the Model Application Engine swallows the typed
parse error and keeps the original, untransformed value (the engine is a
total function — no exception escapes it). -/
theorem c8_int_coercion_fallback (model : ModelDefinition) (key : String) (v : Value)
    (fd : FieldDefinition)
    (hfd : assocGet model.fields (resolveKey model key) = some fd)
    (htype : fd.field_type = .str "int")
    (hbad : pyParseInt (pyStrip (pyStr v)) = none)
    (hmap : ∀ sub, v ≠ .map sub) (hlist : ∀ xs, v ≠ .list xs) :
    _apply_model_to_dict model [(key, v)] = [(resolveKey model key, v)] := by
  have herr : _parse_typed_value (pyStr v) fd.field_type = .error .valueError := by
    rw [htype]
    exact parse_typed_int_bad _ hbad
  have hval : applyEntryValue model key v = v := by
    cases v with
    | map sub => exact absurd rfl (hmap sub)
    | list xs => exact absurd rfl (hlist xs)
    | bool b => simp only [applyEntryValue, hfd, coerceScalar, herr]
    | int n => simp only [applyEntryValue, hfd, coerceScalar, herr]
    | float m e => simp only [applyEntryValue, hfd, coerceScalar, herr]
    | nan => simp only [applyEntryValue, hfd, coerceScalar, herr]
    | inf neg => simp only [applyEntryValue, hfd, coerceScalar, herr]
    | str s => simp only [applyEntryValue, hfd, coerceScalar, herr]
  rw [_apply_model_to_dict, applyGo, hval, applyGo]
  rfl

/-- Witness for C8 at the spec's example value `"abc"`. -/
theorem c8_int_coercion_fallback_witness :
    _apply_model_to_dict ageModel [("a", .str "abc")] = [("age", .str "abc")] :=
  c8_int_coercion_fallback ageModel "a" (.str "abc") ⟨"age", .str "a", .str "int", none⟩
    (by rfl) (by rfl) (by rfl)
    (fun sub h => Value.noConfusion h) (fun xs h => Value.noConfusion h)


/-! ### Claim C10: colliding keys in the Model Application Engine -/

/-- The `any` test of `dictInsert` is key membership. -/
theorem any_keys_iff (d : List (String × Value)) (k : String) :
    d.any (fun e => e.1 = k) = true ↔ k ∈ d.map Prod.fst := by
  simp [List.any_eq_true, List.mem_map]

/-- Inserting an existing key keeps the key sequence. -/
theorem keys_dictInsert_of_mem (d : List (String × Value)) (k : String) (v : Value)
    (h : k ∈ d.map Prod.fst) :
    (dictInsert d k v).map Prod.fst = d.map Prod.fst := by
  unfold dictInsert
  rw [if_pos ((any_keys_iff d k).mpr h)]
  rw [List.map_map]
  apply List.map_congr_left
  intro e he
  by_cases hk : e.1 = k <;> simp [hk]

/-- Inserting a fresh key appends it. -/
theorem keys_dictInsert_of_not_mem (d : List (String × Value)) (k : String) (v : Value)
    (h : ¬ k ∈ d.map Prod.fst) :
    (dictInsert d k v).map Prod.fst = d.map Prod.fst ++ [k] := by
  unfold dictInsert
  rw [if_neg (fun hh => h ((any_keys_iff d k).mp hh))]
  simp

/-- Inserting an existing key keeps the dict size. -/
theorem length_dictInsert_of_mem (d : List (String × Value)) (k : String) (v : Value)
    (h : k ∈ d.map Prod.fst) :
    (dictInsert d k v).length = d.length := by
  unfold dictInsert
  rw [if_pos ((any_keys_iff d k).mpr h)]
  simp

/-- An insertion grows a dict by at most one entry. -/
theorem length_dictInsert_le (d : List (String × Value)) (k : String) (v : Value) :
    (dictInsert d k v).length ≤ d.length + 1 := by
  unfold dictInsert
  split <;> simp

/-- The inserted key is present afterwards. -/
theorem mem_keys_dictInsert_self (d : List (String × Value)) (k : String) (v : Value) :
    k ∈ (dictInsert d k v).map Prod.fst := by
  by_cases h : k ∈ d.map Prod.fst
  · rw [keys_dictInsert_of_mem d k v h]; exact h
  · rw [keys_dictInsert_of_not_mem d k v h]; simp

/-- Insertion never removes keys. -/
theorem mem_keys_dictInsert_mono (d : List (String × Value)) (k k' : String) (v : Value)
    (h : k' ∈ d.map Prod.fst) : k' ∈ (dictInsert d k v).map Prod.fst := by
  by_cases hm : k ∈ d.map Prod.fst
  · rw [keys_dictInsert_of_mem d k v hm]; exact h
  · rw [keys_dictInsert_of_not_mem d k v hm]; exact List.mem_append_left _ h

/-- Looking up the key just inserted yields the new value. -/
theorem dictGet_dictInsert_self (d : List (String × Value)) (k : String) (v : Value) :
    dictGet (dictInsert d k v) k = some v := by
  unfold dictInsert
  split
  · rename_i hany
    induction d with
    | nil => simp at hany
    | cons e rest ih =>
      rw [List.map_cons]
      by_cases hk : e.1 = k
      · rw [if_pos hk, dictGet_cons, if_pos rfl]
      · rw [if_neg hk, dictGet_cons, if_neg hk]
        exact ih (by simpa [hk] using hany)
  · induction d with
    | nil => simp [dictGet_cons]
    | cons e rest ih =>
      rename_i hany
      rw [List.cons_append, dictGet_cons]
      have he : ¬ e.1 = k := by
        intro hk
        exact hany (by simp [List.any_cons, hk])
      rw [if_neg he]
      exact ih (fun hh => hany (by simp [List.any_cons]; right; simpa using hh))

/-- Insertion leaves other keys' lookups unchanged. -/
theorem dictGet_dictInsert_other (d : List (String × Value)) (k k' : String) (v : Value)
    (hne : k' ≠ k) : dictGet (dictInsert d k v) k' = dictGet d k' := by
  unfold dictInsert
  split
  · rename_i hany
    clear hany
    induction d with
    | nil => rfl
    | cons e rest ih =>
      rw [List.map_cons, dictGet_cons, dictGet_cons]
      by_cases hk : e.1 = k
      · rw [if_pos hk]
        have : ¬ (k, v).1 = k' := fun hh => hne (hh.symm)
        rw [if_neg this, if_neg (by rw [hk]; exact fun hh => hne hh.symm)]
        exact ih
      · rw [if_neg hk]
        by_cases hk' : e.1 = k'
        · rw [if_pos hk', if_pos hk']
        · rw [if_neg hk', if_neg hk']
          exact ih
  · rename_i hany
    clear hany
    induction d with
    | nil =>
      rw [List.nil_append, dictGet_cons, if_neg (fun hh => hne hh.symm)]
    | cons e rest ih =>
      rw [List.cons_append, dictGet_cons, dictGet_cons]
      by_cases hk' : e.1 = k'
      · rw [if_pos hk', if_pos hk']
      · rw [if_neg hk', if_neg hk']
        exact ih

/-- The engine loop splits over list append. -/
theorem applyGo_append (m : ModelDefinition) (acc : List (String × Value))
    (xs ys : List (String × Value)) :
    applyGo m acc (xs ++ ys) = applyGo m (applyGo m acc xs) ys := by
  induction xs generalizing acc with
  | nil => rw [List.nil_append, applyGo]
  | cons e rest ih =>
    obtain ⟨k, v⟩ := e
    rw [List.cons_append, applyGo, applyGo]
    exact ih _

/-- The engine loop adds at most one output entry per input entry. -/
theorem applyGo_length_le (m : ModelDefinition) (acc d : List (String × Value)) :
    (applyGo m acc d).length ≤ acc.length + d.length := by
  induction d generalizing acc with
  | nil => rw [applyGo]; simp
  | cons e rest ih =>
    obtain ⟨k, v⟩ := e
    rw [applyGo]
    have h1 := ih (dictInsert acc (resolveKey m k) (applyEntryValue m k v))
    have h2 := length_dictInsert_le acc (resolveKey m k) (applyEntryValue m k v)
    simp only [List.length_cons]
    omega

/-- Keys present in the accumulated result persist through the loop. -/
theorem mem_keys_applyGo_mono (m : ModelDefinition) (acc d : List (String × Value))
    (k' : String) (h : k' ∈ acc.map Prod.fst) :
    k' ∈ (applyGo m acc d).map Prod.fst := by
  induction d generalizing acc with
  | nil => rw [applyGo]; exact h
  | cons e rest ih =>
    obtain ⟨k, v⟩ := e
    rw [applyGo]
    exact ih _ (mem_keys_dictInsert_mono _ _ _ _ h)

/-- After the loop processes an entry, its resolved key is present. -/
theorem mem_keys_applyGo_of_mem (m : ModelDefinition) (acc d : List (String × Value))
    (k : String) (v : Value) (h : (k, v) ∈ d) :
    resolveKey m k ∈ (applyGo m acc d).map Prod.fst := by
  induction d generalizing acc with
  | nil => simp at h
  | cons e rest ih =>
    obtain ⟨k0, v0⟩ := e
    rw [applyGo]
    rcases List.mem_cons.mp h with heq | hmem
    · injection heq with h1 h2
      subst h1
      exact mem_keys_applyGo_mono m _ rest _ (mem_keys_dictInsert_self _ _ _)
    · exact ih _ hmem

/-- Entries resolving to other names do not disturb a key's lookup. -/
theorem dictGet_applyGo_of_no_resolve (m : ModelDefinition)
    (acc d : List (String × Value)) (c : String)
    (h : ∀ e ∈ d, resolveKey m e.1 ≠ c) :
    dictGet (applyGo m acc d) c = dictGet acc c := by
  induction d generalizing acc with
  | nil => rw [applyGo]
  | cons e rest ih =>
    obtain ⟨k, v⟩ := e
    rw [applyGo]
    rw [ih _ (fun e he => h e (List.mem_cons_of_mem _ he))]
    exact dictGet_dictInsert_other _ _ _ _
      (fun hh => (h (k, v) (by simp)) hh.symm)

/-- C10: if a mapping with distinct keys contains an earlier key `k₁` and a
later key `k₂` that resolve to the same canonical name (and no third key
does), the engine's output holds exactly the later entry's transformed value
under that name, and the output has strictly fewer entries than the input —
the earlier entry is silently overwritten, with no error. -/
theorem c10_alias_collision_last_wins (m : ModelDefinition) (d d₁ d₂ d₃ : List (String × Value))
    (k₁ k₂ : String) (v₁ v₂ : Value)
    (hsplit : d = d₁ ++ (k₁, v₁) :: d₂ ++ (k₂, v₂) :: d₃)
    (hnd : (d.map Prod.fst).Nodup)
    (hne : k₁ ≠ k₂)
    (hres : resolveKey m k₁ = resolveKey m k₂)
    (honly : ∀ e ∈ d, resolveKey m e.1 = resolveKey m k₂ → e.1 = k₁ ∨ e.1 = k₂) :
    dictGet (_apply_model_to_dict m d) (resolveKey m k₂)
        = some (applyEntryValue m k₂ v₂) ∧
      (_apply_model_to_dict m d).length < d.length := by
  rw [hsplit] at hnd
  simp only [List.map_append, List.map_cons, List.nodup_append, List.nodup_cons,
    List.mem_append, List.mem_cons, List.mem_map] at hnd
  have hk13 : k₁ ∉ d₃.map Prod.fst := by
    intro hm
    exact hnd.2.2 (by simp) (List.mem_cons_of_mem _ hm)
  have hk23 : k₂ ∉ d₃.map Prod.fst := by
    intro hm
    rcases List.mem_map.mp hm with ⟨e, he, hk⟩
    exact hnd.2.1.1 ⟨e, he, hk⟩
  subst hsplit
  have hassoc : d₁ ++ (k₁, v₁) :: d₂ ++ (k₂, v₂) :: d₃
      = (d₁ ++ (k₁, v₁) :: d₂) ++ ((k₂, v₂) :: d₃) := by simp
  rw [_apply_model_to_dict, hassoc, applyGo_append, applyGo]
  have hcA : resolveKey m k₂ ∈ (applyGo m [] (d₁ ++ (k₁, v₁) :: d₂)).map Prod.fst := by
    rw [← hres]
    exact mem_keys_applyGo_of_mem m [] _ k₁ v₁ (by simp)
  have hd₃ : ∀ e ∈ d₃, resolveKey m e.1 ≠ resolveKey m k₂ := by
    intro e he hr
    have hmem : e ∈ d₁ ++ (k₁, v₁) :: d₂ ++ (k₂, v₂) :: d₃ := by
      obtain ⟨ek, ev⟩ := e
      simp [he]
    rcases honly e hmem hr with h1 | h2
    · exact hk13 (h1 ▸ List.mem_map_of_mem Prod.fst he)
    · exact hk23 (h2 ▸ List.mem_map_of_mem Prod.fst he)
  constructor
  · rw [dictGet_applyGo_of_no_resolve m _ d₃ _ hd₃]
    exact dictGet_dictInsert_self _ _ _
  · have l1 := applyGo_length_le m
      (dictInsert (applyGo m [] (d₁ ++ (k₁, v₁) :: d₂)) (resolveKey m k₂)
        (applyEntryValue m k₂ v₂)) d₃
    have l2 := length_dictInsert_of_mem _ (resolveKey m k₂) (applyEntryValue m k₂ v₂) hcA
    have l3 := applyGo_length_le m [] (d₁ ++ (k₁, v₁) :: d₂)
    simp only [List.length_append, List.length_cons, List.length_nil] at l1 l2 l3 ⊢
    omega

/-- Witness for C10: under `ageModel`, alias `a` and full name `age` collide;
the later entry wins and the output shrinks. -/
theorem c10_alias_collision_last_wins_witness :
    ("a" : String) ≠ "age" ∧
    resolveKey ageModel "a" = resolveKey ageModel "age" ∧
    dictGet (_apply_model_to_dict ageModel [("a", .str "1"), ("age", .str "2")])
        (resolveKey ageModel "age") = some (applyEntryValue ageModel "age" (.str "2")) ∧
    (_apply_model_to_dict ageModel [("a", .str "1"), ("age", .str "2")]).length < 2 := by
  have main := c10_alias_collision_last_wins ageModel [("a", .str "1"), ("age", .str "2")] [] [] []
    "a" "age" (.str "1") (.str "2") rfl (by simp) (by decide) (by rfl)
    (by intro e he hr
        rcases List.mem_cons.mp he with h1 | h2
        · left; rw [h1]
        · rcases List.mem_cons.mp h2 with h3 | h4
          · right; rw [h3]
          · simp at h4)
  exact ⟨by decide, by rfl, main.1, main.2⟩


/-! ### Claim C9 (amended): the induction showing exactly one trailing
newline when no empty Mapping value occurs -/

/-- The last element of `l ++ [a]` is `a`. -/
theorem getLast?_append_singleton {α : Type} (l : List α) (a : α) :
    (l ++ [a]).getLast? = some a := by
  rw [List.getLast?_append_of_ne_nil _ (by simp)]
  rfl

/-- A cons does not change the last element of a nonempty list. -/
theorem getLast?_cons_of_ne_nil {α : Type} (a : α) (l : List α) (h : l ≠ []) :
    (a :: l).getLast? = l.getLast? := by
  rw [show a :: l = [a] ++ l from rfl, List.getLast?_append_of_ne_nil _ h]

/-- Digit characters are digits. -/
theorem digitChar_isDigit (d : Nat) (h : d < 10) : isDigitC (digitChar d) = true := by
  interval_cases d <;> decide

/-- All decimal digits are below 10. -/
theorem natDigits_lt (n : Nat) : ∀ d ∈ natDigits n, d < 10 := by
  induction n using Nat.strong_induction_on with
  | _ n ih =>
    rw [natDigits]
    split
    · intro d hd
      rw [List.mem_singleton] at hd
      omega
    · intro d hd
      rcases List.mem_append.mp hd with h1 | h2
      · exact ih (n / 10) (Nat.div_lt_self (by omega) (by omega)) d h1
      · rw [List.mem_singleton] at h2
        subst h2
        omega

/-- A numeral has at least one digit. -/
theorem natDigits_ne_nil (n : Nat) : natDigits n ≠ [] := by
  rw [natDigits]
  split <;> simp

/-- A rendered natural consists of digit characters. -/
theorem renderNat_digits (n : Nat) : ∀ c ∈ renderNat n, isDigitC c = true := by
  intro c hc
  rcases List.mem_map.mp hc with ⟨d, hd, rfl⟩
  exact digitChar_isDigit d (natDigits_lt n d hd)

/-- A rendered natural is nonempty. -/
theorem renderNat_ne_nil (n : Nat) : renderNat n ≠ [] := by
  unfold renderNat
  simp [natDigits_ne_nil n]

/-- The last element is a member. -/
theorem getLast?_mem {α : Type} (l : List α) (c : α) (h : l.getLast? = some c) :
    c ∈ l := by
  cases l with
  | nil => exact Option.noConfusion h
  | cons x xs =>
    rw [List.getLast?_eq_getLast _ (by simp)] at h
    injection h with h
    rw [← h]
    exact List.getLast_mem _

/-- Digit characters are not the newline. -/
theorem isDigit_ne_newline (c : Char) (h : isDigitC c = true) : c ≠ '\n' := by
  intro hnl
  rw [hnl] at h
  exact absurd h (by decide)

/-- A rendered integer ends in a digit, never a newline. -/
theorem renderInt_last (m : Int) (c : Char) (h : (renderInt m).getLast? = some c) :
    c ≠ '\n' := by
  unfold renderInt at h
  have hc : c ∈ renderNat m.natAbs := by
    split at h
    · rw [getLast?_cons_of_ne_nil _ _ (renderNat_ne_nil _)] at h
      exact getLast?_mem _ _ h
    · exact getLast?_mem _ _ h
  exact isDigit_ne_newline c (renderNat_digits _ c hc)

/-- A rendered float ends in a digit, never a newline. -/
theorem renderFloat_last (m : Int) (e : Nat) (c : Char)
    (h : (renderFloat m e).getLast? = some c) : c ≠ '\n' := by
  have h2 : ((if e = 0 then renderNat m.natAbs ++ ['.', '0']
      else renderNat (m.natAbs / 10 ^ e) ++
        '.' :: padZeros e (renderNat (m.natAbs % 10 ^ e))).getLast?) = some c := by
    rw [show renderFloat m e = if m < 0 then
        '-' :: (if e = 0 then renderNat m.natAbs ++ ['.', '0']
          else renderNat (m.natAbs / 10 ^ e) ++
            '.' :: padZeros e (renderNat (m.natAbs % 10 ^ e)))
      else (if e = 0 then renderNat m.natAbs ++ ['.', '0']
          else renderNat (m.natAbs / 10 ^ e) ++
            '.' :: padZeros e (renderNat (m.natAbs % 10 ^ e))) from rfl] at h
    split at h
    · rwa [getLast?_cons_of_ne_nil _ _ (by split <;> simp)] at h
    · exact h
  split at h2
  · rw [show renderNat m.natAbs ++ ['.', '0']
        = (renderNat m.natAbs ++ ['.']) ++ ['0'] from by simp,
      getLast?_append_singleton] at h2
    injection h2 with h2
    rw [← h2]
    decide
  · rw [List.getLast?_append_of_ne_nil _ (by simp)] at h2
    rw [getLast?_cons_of_ne_nil _ _ (by
      unfold padZeros
      intro hh
      exact renderNat_ne_nil _ (List.append_eq_nil.mp hh).2)] at h2
    unfold padZeros at h2
    rw [List.getLast?_append_of_ne_nil _ (renderNat_ne_nil _)] at h2
    exact isDigit_ne_newline c (renderNat_digits _ c (getLast?_mem _ _ h2))

/-- No rendered scalar/list value ends in a newline (quoted strings end in
the quote, bare strings contain no whitespace, numerals end in digits, lists
in the bracket; mappings render empty). -/
theorem stringify_value_last (v : Value) :
    ∀ c, (_stringify_value v).getLast? = some c → c ≠ '\n' := by
  cases v with
  | str s =>
    intro c hc
    rw [_stringify_value] at hc
    split at hc
    · rw [show '"' :: (s.data ++ ['"']) = ('"' :: s.data) ++ ['"'] from rfl,
        getLast?_append_singleton] at hc
      injection hc with hc
      rw [← hc]
      decide
    · rename_i hcond
      have hnosp : ∀ ch ∈ s.data, ¬ isPySpace ch = true := by
        intro ch hch hsp
        exact hcond (by simp [List.any_eq_true]; exact Or.inl ⟨ch, hch, hsp⟩)
      have := hnosp c (getLast?_mem _ _ hc)
      intro hnl
      exact this (by rw [hnl]; decide)
  | bool b =>
    intro c hc
    rw [_stringify_value] at hc
    cases b <;> simp at hc <;> (rw [← hc]; decide)
  | int n =>
    intro c hc
    rw [_stringify_value] at hc
    exact renderInt_last n c hc
  | float m e =>
    intro c hc
    rw [_stringify_value] at hc
    exact renderFloat_last m e c hc
  | nan =>
    intro c hc
    rw [_stringify_value] at hc
    injection hc with hc
    rw [← hc]
    decide
  | inf neg =>
    intro c hc
    rw [_stringify_value] at hc
    cases neg <;> simp at hc <;> (rw [← hc]; decide)
  | list xs =>
    intro c hc
    rw [_stringify_value] at hc
    rw [show '[' :: (joinComma (stringifyValues xs) ++ [']'])
        = ('[' :: joinComma (stringifyValues xs)) ++ [']'] from rfl,
      getLast?_append_singleton] at hc
    injection hc with hc
    rw [← hc]
    decide
  | map es =>
    intro c hc
    rw [_stringify_value] at hc
    exact Option.noConfusion hc

/-- Dropping the last element of `l ++ [a]` gives `l`. -/
theorem dropLast_append_singleton {α : Type} (l : List α) (a : α) :
    (l ++ [a]).dropLast = l := by
  simp

/-- A newline-join of nonempty good lines is nonempty and does not end in a
newline. -/
theorem joinNewline_good (ls : List (List Char)) (hne : ls ≠ [])
    (h : ∀ l ∈ ls, GoodLine l) : GoodLine (joinNewline ls) := by
  induction ls with
  | nil => exact absurd rfl hne
  | cons x xs ih =>
    cases xs with
    | nil => exact h x (by simp)
    | cons y ys =>
      have hg := ih (by simp) (fun l hl => h l (by simp [hl]))
      constructor
      · rw [joinNewline]
        simp
      · intro c hc
        rw [joinNewline] at hc
        rw [List.getLast?_append_of_ne_nil _ (by simp)] at hc
        rw [getLast?_cons_of_ne_nil _ _ hg.1] at hc
        exact hg.2 c hc

/-- A section-header line ends in the colon. -/
theorem keyLine_good (k : String) (ind : Nat) :
    GoodLine (pad ind ++ (k.data ++ [':'])) := by
  constructor
  · simp
  · intro c hc
    rw [show pad ind ++ (k.data ++ [':']) = (pad ind ++ k.data) ++ [':'] from by simp,
      getLast?_append_singleton] at hc
    injection hc with hc
    rw [← hc]
    decide

/-- An assignment line never ends in a newline. -/
theorem assignLine_good (k : String) (ind : Nat) (v : Value) :
    GoodLine (pad ind ++ (k.data ++ (' ' :: '=' :: ' ' :: _stringify_value v))) := by
  constructor
  · simp
  · intro c hc
    rw [List.getLast?_append_of_ne_nil _ (by simp)] at hc
    rw [List.getLast?_append_of_ne_nil _ (by simp)] at hc
    by_cases hsv : _stringify_value v = []
    · rw [hsv] at hc
      simp [List.getLast?] at hc
      rw [← hc]
      decide
    · rw [getLast?_cons_of_ne_nil _ _ (by simp),
        getLast?_cons_of_ne_nil _ _ (by simp),
        getLast?_cons_of_ne_nil _ _ hsv] at hc
      exact stringify_value_last v c hc

/-- A nonempty mapping produces at least one line. -/
theorem objLines_ne_nil (d : List (String × Value)) (ind : Nat) (h : d ≠ []) :
    objLines d ind ≠ [] := by
  cases d with
  | nil => exact absurd rfl h
  | cons e rest =>
    obtain ⟨k, v⟩ := e
    cases v <;>
      (rw [objLines] <;> (try simp) <;> (try (intro sub hh; exact Value.noConfusion hh)))

/-- Under `noEmptyMapValues`, every element the stringifier joins is a good
line (strong induction on the tree size). -/
theorem objLines_good : ∀ N : Nat, ∀ d : List (String × Value), sizeOf d ≤ N → ∀ ind : Nat,
    noEmptyMapValues d = true → ∀ l ∈ objLines d ind, GoodLine l := by
  intro N
  induction N with
  | zero =>
    intro d hd
    exfalso
    cases d <;> simp_arith at hd
  | succ N ih =>
    intro d hd ind hgood l hl
    cases d with
    | nil => rw [objLines] at hl; simp at hl
    | cons e rest =>
      obtain ⟨k, v⟩ := e
      cases v with
      | map sub =>
        rw [objLines] at hl
        rw [noEmptyMapValues] at hgood
        simp only [Bool.and_eq_true, Bool.not_eq_true'] at hgood
        obtain ⟨⟨hsub_ne, hsub_good⟩, hrest⟩ := hgood
        have hsub_ne' : sub ≠ [] := by
          intro hh
          rw [hh] at hsub_ne
          simp at hsub_ne
        have hsize : sizeOf sub ≤ N := by
          have : sizeOf ((k, Value.map sub) :: rest) ≤ N + 1 := hd
          simp only [List.cons.sizeOf_spec, Prod.mk.sizeOf_spec,
            Value.map.sizeOf_spec] at this
          omega
        have hsizer : sizeOf rest ≤ N := by
          have : sizeOf ((k, Value.map sub) :: rest) ≤ N + 1 := hd
          simp only [List.cons.sizeOf_spec, Prod.mk.sizeOf_spec,
            Value.map.sizeOf_spec] at this
          omega
        rcases List.mem_cons.mp hl with hl1 | hl2
        · rw [hl1]
          exact keyLine_good k ind
        · rcases List.mem_cons.mp hl2 with hl3 | hl4
          · rw [hl3, _stringify_object]
            exact joinNewline_good _ (objLines_ne_nil sub _ hsub_ne')
              (fun l' hl' => ih sub hsize (ind + 2) hsub_good l' hl')
          · exact ih rest hsizer ind hrest l hl4
      | bool b =>
        rw [objLines] at hl
        all_goals try (intro a1 a2 hh; injection hh with h1 h2; exact Value.noConfusion h2)
        all_goals try (intro a1 hh; exact Value.noConfusion hh)
        rw [noEmptyMapValues] at hgood
        all_goals try (intro a1 a2 hh; injection hh with h1 h2; exact Value.noConfusion h2)
        all_goals try (intro a1 hh; exact Value.noConfusion hh)
        rcases List.mem_cons.mp hl with hl1 | hl2
        · rw [hl1]; exact assignLine_good k ind (Value.bool b)
        · exact ih rest (by
            have : sizeOf ((k, Value.bool b) :: rest) ≤ N + 1 := hd
            simp only [List.cons.sizeOf_spec, Prod.mk.sizeOf_spec] at this
            omega) ind hgood l hl2
      | int n =>
        rw [objLines] at hl
        all_goals try (intro a1 a2 hh; injection hh with h1 h2; exact Value.noConfusion h2)
        all_goals try (intro a1 hh; exact Value.noConfusion hh)
        rw [noEmptyMapValues] at hgood
        all_goals try (intro a1 a2 hh; injection hh with h1 h2; exact Value.noConfusion h2)
        all_goals try (intro a1 hh; exact Value.noConfusion hh)
        rcases List.mem_cons.mp hl with hl1 | hl2
        · rw [hl1]; exact assignLine_good k ind (Value.int n)
        · exact ih rest (by
            have : sizeOf ((k, Value.int n) :: rest) ≤ N + 1 := hd
            simp only [List.cons.sizeOf_spec, Prod.mk.sizeOf_spec] at this
            omega) ind hgood l hl2
      | float m e =>
        rw [objLines] at hl
        all_goals try (intro a1 a2 hh; injection hh with h1 h2; exact Value.noConfusion h2)
        all_goals try (intro a1 hh; exact Value.noConfusion hh)
        rw [noEmptyMapValues] at hgood
        all_goals try (intro a1 a2 hh; injection hh with h1 h2; exact Value.noConfusion h2)
        all_goals try (intro a1 hh; exact Value.noConfusion hh)
        rcases List.mem_cons.mp hl with hl1 | hl2
        · rw [hl1]; exact assignLine_good k ind (Value.float m e)
        · exact ih rest (by
            have : sizeOf ((k, Value.float m e) :: rest) ≤ N + 1 := hd
            simp only [List.cons.sizeOf_spec, Prod.mk.sizeOf_spec] at this
            omega) ind hgood l hl2
      | nan =>
        rw [objLines] at hl
        all_goals try (intro a1 a2 hh; injection hh with h1 h2; exact Value.noConfusion h2)
        all_goals try (intro a1 hh; exact Value.noConfusion hh)
        rw [noEmptyMapValues] at hgood
        all_goals try (intro a1 a2 hh; injection hh with h1 h2; exact Value.noConfusion h2)
        all_goals try (intro a1 hh; exact Value.noConfusion hh)
        rcases List.mem_cons.mp hl with hl1 | hl2
        · rw [hl1]; exact assignLine_good k ind (Value.nan)
        · exact ih rest (by
            have : sizeOf ((k, Value.nan) :: rest) ≤ N + 1 := hd
            simp only [List.cons.sizeOf_spec, Prod.mk.sizeOf_spec] at this
            omega) ind hgood l hl2
      | inf neg =>
        rw [objLines] at hl
        all_goals try (intro a1 a2 hh; injection hh with h1 h2; exact Value.noConfusion h2)
        all_goals try (intro a1 hh; exact Value.noConfusion hh)
        rw [noEmptyMapValues] at hgood
        all_goals try (intro a1 a2 hh; injection hh with h1 h2; exact Value.noConfusion h2)
        all_goals try (intro a1 hh; exact Value.noConfusion hh)
        rcases List.mem_cons.mp hl with hl1 | hl2
        · rw [hl1]; exact assignLine_good k ind (Value.inf neg)
        · exact ih rest (by
            have : sizeOf ((k, Value.inf neg) :: rest) ≤ N + 1 := hd
            simp only [List.cons.sizeOf_spec, Prod.mk.sizeOf_spec] at this
            omega) ind hgood l hl2
      | str s =>
        rw [objLines] at hl
        all_goals try (intro a1 a2 hh; injection hh with h1 h2; exact Value.noConfusion h2)
        all_goals try (intro a1 hh; exact Value.noConfusion hh)
        rw [noEmptyMapValues] at hgood
        all_goals try (intro a1 a2 hh; injection hh with h1 h2; exact Value.noConfusion h2)
        all_goals try (intro a1 hh; exact Value.noConfusion hh)
        rcases List.mem_cons.mp hl with hl1 | hl2
        · rw [hl1]; exact assignLine_good k ind (Value.str s)
        · exact ih rest (by
            have : sizeOf ((k, Value.str s) :: rest) ≤ N + 1 := hd
            simp only [List.cons.sizeOf_spec, Prod.mk.sizeOf_spec] at this
            omega) ind hgood l hl2
      | list xs =>
        rw [objLines] at hl
        all_goals try (intro a1 a2 hh; injection hh with h1 h2; exact Value.noConfusion h2)
        all_goals try (intro a1 hh; exact Value.noConfusion hh)
        rw [noEmptyMapValues] at hgood
        all_goals try (intro a1 a2 hh; injection hh with h1 h2; exact Value.noConfusion h2)
        all_goals try (intro a1 hh; exact Value.noConfusion hh)
        rcases List.mem_cons.mp hl with hl1 | hl2
        · rw [hl1]; exact assignLine_good k ind (Value.list xs)
        · exact ih rest (by
            have : sizeOf ((k, Value.list xs) :: rest) ≤ N + 1 := hd
            simp only [List.cons.sizeOf_spec, Prod.mk.sizeOf_spec] at this
            omega) ind hgood l hl2

/-- C9 amended: for every mapping containing no empty Mapping value
(recursively), `StringifyFlow` ends with exactly one trailing newline.  With
an empty Mapping value the output can end with two (see the
counterexample). -/
theorem c9_single_trailing_newline (d : List (String × Value)) (h : noEmptyMapValues d = true) :
    (StringifyFlow d).data.getLast? = some '\n' ∧
      (StringifyFlow d).data.dropLast.getLast? ≠ some '\n' := by
  have hdata : (StringifyFlow d).data = _stringify_object d 0 ++ ['\n'] := rfl
  rw [hdata, dropLast_append_singleton]
  refine ⟨getLast?_append_singleton _ _, ?_⟩
  cases d with
  | nil =>
    rw [show _stringify_object ([] : List (String × Value)) 0 = [] from by
      rw [_stringify_object, objLines]
      rfl]
    simp
  | cons e rest =>
    have hg := joinNewline_good (objLines ((e :: rest) : List (String × Value)) 0)
      (objLines_ne_nil _ _ (by simp))
      (objLines_good (sizeOf ((e :: rest) : List (String × Value))) _ (Nat.le_refl _) 0 h)
    rw [_stringify_object]
    intro hc
    exact hg.2 '\n' hc rfl

/-- Witness for C9 amended on a two-level mapping. -/
theorem c9_single_trailing_newline_witness :
    noEmptyMapValues [("a", Value.map [("b", Value.int 1)])] = true ∧
    ((StringifyFlow [("a", Value.map [("b", Value.int 1)])]).data.getLast?
        = some '\n' ∧
      (StringifyFlow [("a", Value.map [("b", Value.int 1)])]).data.dropLast.getLast?
        ≠ some '\n') := by
  have hne : noEmptyMapValues [("a", Value.map [("b", Value.int 1)])] = true := by
    rw [noEmptyMapValues, noEmptyMapValues, noEmptyMapValues, noEmptyMapValues]
    all_goals try (intro a1 a2 hh; injection hh with h1 h2; exact Value.noConfusion h2)
    all_goals try (intro a1 hh; exact Value.noConfusion hh)
    simp
  exact ⟨hne, c9_single_trailing_newline _ hne⟩

/-! ### Claim C7: machinery — numeral round trips, float normalization and
`strip` idempotence -/


/-- Appending a digit multiplies the value by ten and adds it. -/
theorem natOfDigits_append_singleton (ds : List Nat) (d : Nat) :
    natOfDigits (ds ++ [d]) = natOfDigits ds * 10 + d := by
  unfold natOfDigits
  rw [List.foldl_append]
  rfl

/-- The digits of `n` evaluate back to `n`. -/
theorem natOfDigits_natDigits (n : Nat) : natOfDigits (natDigits n) = n := by
  induction n using Nat.strong_induction_on with
  | _ n ih =>
    rw [natDigits]
    split
    · unfold natOfDigits
      simp
    · rw [natOfDigits_append_singleton,
        ih (n / 10) (Nat.div_lt_self (by omega) (by omega))]
      omega

/-- Digit characters decode to their digit. -/
theorem charDigit_digitChar (d : Nat) (h : d < 10) : charDigit (digitChar d) = d := by
  interval_cases d <;> decide

/-- Decoding an encoded digit list is the identity. -/
theorem map_charDigit_digitChar (ds : List Nat) (h : ∀ d ∈ ds, d < 10) :
    (ds.map digitChar).map charDigit = ds := by
  rw [List.map_map]
  have : ∀ d ∈ ds, (charDigit ∘ digitChar) d = id d := by
    intro d hd
    exact charDigit_digitChar d (h d hd)
  rw [List.map_congr_left this, List.map_id]

/-- `int(str(n)) = n` at the digit-run level. -/
theorem natOfChars_renderNat (n : Nat) : natOfChars (renderNat n) = n := by
  unfold natOfChars renderNat
  rw [map_charDigit_digitChar _ (natDigits_lt n), natOfDigits_natDigits]

/-- A rendered natural is all digits (`all` form). -/
theorem renderNat_all_digits (n : Nat) : (renderNat n).all isDigitC = true := by
  rw [List.all_eq_true]
  exact renderNat_digits n

/-- `int(str(n)) = n` for naturals. -/
theorem pyParseInt_renderNat (n : Nat) : pyParseInt (renderNat n) = some (n : Int) := by
  unfold pyParseInt
  split
  · rename_i rest heq
    exfalso
    have hm : '-' ∈ renderNat n := by rw [heq]; simp
    exact absurd (renderNat_digits n '-' hm) (by decide)
  · rename_i rest heq
    exfalso
    have hm : '+' ∈ renderNat n := by rw [heq]; simp
    exact absurd (renderNat_digits n '+' hm) (by decide)
  · rw [if_pos (by simp [renderNat_ne_nil n, renderNat_all_digits n]),
      natOfChars_renderNat]

/-- `int(str(m)) = m` for integers. -/
theorem pyParseInt_renderInt (m : Int) : pyParseInt (renderInt m) = some m := by
  unfold renderInt
  split
  · rename_i hneg
    rw [show pyParseInt ('-' :: renderNat m.natAbs)
        = if renderNat m.natAbs ≠ [] && (renderNat m.natAbs).all isDigitC
          then some (-(natOfChars (renderNat m.natAbs) : Int)) else none from rfl]
    rw [if_pos (by simp [renderNat_ne_nil m.natAbs, renderNat_all_digits m.natAbs]),
      natOfChars_renderNat]
    congr 1
    omega
  · rename_i hpos
    rw [pyParseInt_renderNat]
    congr 1
    omega

/-- `takeWhile` passes over an all-true prefix. -/
theorem takeWhile_append_all {α : Type} (p : α → Bool) (xs rest : List α)
    (h : ∀ c ∈ xs, p c = true) :
    (xs ++ rest).takeWhile p = xs ++ rest.takeWhile p := by
  induction xs with
  | nil => simp
  | cons c cs ih =>
    rw [List.cons_append, List.takeWhile_cons_of_pos (h c (by simp)),
      ih (fun x hx => h x (by simp [hx]))]
    rfl

/-- `dropWhile` consumes an all-true prefix. -/
theorem dropWhile_append_all {α : Type} (p : α → Bool) (xs rest : List α)
    (h : ∀ c ∈ xs, p c = true) :
    (xs ++ rest).dropWhile p = rest.dropWhile p := by
  induction xs with
  | nil => simp
  | cons c cs ih =>
    rw [List.cons_append, List.dropWhile_cons_of_pos (h c (by simp)),
      ih (fun x hx => h x (by simp [hx]))]

/-- `takeWhile` keeps an all-true list. -/
theorem takeWhile_all_eq {α : Type} (p : α → Bool) (xs : List α)
    (h : ∀ c ∈ xs, p c = true) : xs.takeWhile p = xs := by
  have := takeWhile_append_all p xs [] h
  simpa using this

/-- `dropWhile` empties an all-true list. -/
theorem dropWhile_all_eq {α : Type} (p : α → Bool) (xs : List α)
    (h : ∀ c ∈ xs, p c = true) : xs.dropWhile p = [] := by
  have := dropWhile_append_all p xs [] h
  simpa using this

/-- Folding digits from an accumulator. -/
theorem natOfDigits_from (i : Nat) (l : List Nat) :
    l.foldl (fun a d => a * 10 + d) i = i * 10 ^ l.length + natOfDigits l := by
  induction l generalizing i with
  | nil => simp [natOfDigits]
  | cons d ds ih =>
    rw [List.foldl_cons, ih (i * 10 + d)]
    have hd : natOfDigits (d :: ds) = d * 10 ^ ds.length + natOfDigits ds := by
      unfold natOfDigits
      rw [List.foldl_cons]
      have := ih (0 * 10 + d)
      simpa using this
    rw [hd, List.length_cons, pow_succ]
    ring

/-- Digit-list value of an append. -/
theorem natOfDigits_append (a b : List Nat) :
    natOfDigits (a ++ b) = natOfDigits a * 10 ^ b.length + natOfDigits b := by
  unfold natOfDigits
  rw [List.foldl_append]
  exact natOfDigits_from _ b

/-- Character-run value of an append. -/
theorem natOfChars_append (a b : List Char) :
    natOfChars (a ++ b) = natOfChars a * 10 ^ b.length + natOfChars b := by
  unfold natOfChars
  rw [List.map_append, natOfDigits_append, List.length_map]

/-- Leading zeros have value zero. -/
theorem natOfDigits_replicate_zero (w : Nat) :
    natOfDigits (List.replicate w 0) = 0 := by
  induction w with
  | zero => rfl
  | succ w ih =>
    rw [List.replicate_succ]
    unfold natOfDigits at ih ⊢
    rw [List.foldl_cons]
    simpa using ih

/-- Zero padding does not change a run's value. -/
theorem natOfChars_padZeros (w : Nat) (cs : List Char) :
    natOfChars (padZeros w cs) = natOfChars cs := by
  unfold padZeros
  rw [natOfChars_append]
  have : natOfChars (List.replicate (w - cs.length) '0') = 0 := by
    unfold natOfChars
    rw [List.map_replicate]
    rw [show charDigit '0' = 0 from by decide]
    exact natOfDigits_replicate_zero _
  rw [this]
  simp

/-- Padding reaches the requested width. -/
theorem padZeros_length (w : Nat) (cs : List Char) (h : cs.length ≤ w) :
    (padZeros w cs).length = w := by
  unfold padZeros
  rw [List.length_append, List.length_replicate]
  omega

/-- Padding an all-digit run stays all digits. -/
theorem padZeros_all_digits (w : Nat) (cs : List Char)
    (h : ∀ c ∈ cs, isDigitC c = true) :
    ∀ c ∈ padZeros w cs, isDigitC c = true := by
  intro c hc
  unfold padZeros at hc
  rcases List.mem_append.mp hc with h1 | h2
  · rw [List.eq_of_mem_replicate h1]
    decide
  · exact h c h2

/-- A number below `10 ^ k` has at most `k` digits. -/
theorem natDigits_length_le (k : Nat) : ∀ n : Nat, 0 < k → n < 10 ^ k →
    (natDigits n).length ≤ k := by
  induction k with
  | zero => intro n h; omega
  | succ k ih =>
    intro n _ h
    rw [natDigits]
    split
    · simp
    · rename_i hge
      push_neg at hge
      rw [List.length_append]
      simp only [List.length_singleton]
      have hk0 : 0 < k := by
        by_contra hk0
        have hk : k = 0 := by omega
        subst hk
        rw [pow_one] at h
        omega
      have hdiv : n / 10 < 10 ^ k := by
        rw [Nat.div_lt_iff_lt_mul (by omega)]
        calc n < 10 ^ (k + 1) := h
          _ = 10 ^ k * 10 := by rw [pow_succ]
      have := ih (n / 10) hk0 hdiv
      omega

/-- `normFloat` yields exponent zero or a significand not divisible by ten. -/
theorem normFloat_normalized : ∀ (e : Nat) (m : Nat),
    (normFloat m e).2 = 0 ∨ (normFloat m e).1 % 10 ≠ 0 := by
  intro e
  induction e with
  | zero => intro m; left; rfl
  | succ e ih =>
    intro m
    rw [normFloat]
    split
    · exact ih (m / 10)
    · rename_i h
      right
      exact h

/-- `normFloat` fixes already-normalized pairs. -/
theorem normFloat_fix (m : Nat) (e : Nat) (h : e = 0 ∨ m % 10 ≠ 0) :
    normFloat m e = (m, e) := by
  cases e with
  | zero => rfl
  | succ e =>
    rcases h with h | h
    · exact Nat.noConfusion h
    · rw [normFloat, if_neg h]

/-- `finishFloat` results are fixed by `normPair`. -/
theorem normPair_finishFloat (neg : Bool) (m₀ : Nat) (s : Int) :
    normPair (finishFloat neg m₀ s).1 (finishFloat neg m₀ s).2
      = finishFloat neg m₀ s := by
  unfold finishFloat normPair
  set p := (if s ≤ 0 then normFloat (m₀ * 10 ^ (-s).toNat) 0
            else normFloat m₀ s.toNat) with hp
  have hnorm : p.2 = 0 ∨ p.1 % 10 ≠ 0 := by
    rw [hp]
    split <;> exact normFloat_normalized _ _
  have habs : (if neg then -(p.1 : Int) else (p.1 : Int)).natAbs = p.1 := by
    cases neg <;> simp
  simp only [habs, normFloat_fix p.1 p.2 hnorm]
  cases neg with
  | false =>
    have h1 : (if false = true then -(p.1 : Int) else (p.1 : Int)) = (p.1 : Int) := by simp
    rw [h1, if_neg (by omega : ¬ ((p.1 : Int) < 0))]
  | true =>
    have h1 : (if true = true then -(p.1 : Int) else (p.1 : Int)) = -(p.1 : Int) := by simp
    rw [h1]
    by_cases h0 : p.1 = 0
    · rw [h0]
      norm_num
    · rw [if_pos (by omega : -(p.1 : Int) < 0)]

/-- Text starting with a rendered natural starts with a digit. -/
theorem head_digit_of_append_renderNat (x : Nat) (rest : List Char) (c : Char)
    (h : (renderNat x ++ rest).head? = some c) : isDigitC c = true := by
  rcases hr : renderNat x with _ | ⟨c0, cs⟩
  · exact absurd hr (renderNat_ne_nil x)
  · rw [hr] at h
    rw [List.cons_append] at h
    injection h with h
    rw [← h]
    exact renderNat_digits x c0 (by rw [hr]; simp)

/-- `float()` on digit-initial text skips the sign cases. -/
theorem pyParseFloat_no_sign (cs : List Char)
    (h : ∀ c, cs.head? = some c → isDigitC c = true) :
    pyParseFloat cs = pyParseFloatBody false cs := by
  unfold pyParseFloat
  split
  · exact absurd (h '-' rfl) (by decide)
  · exact absurd (h '+' rfl) (by decide)
  · rfl

/-- Parsing the rendered mantissa of `m / 10 ^ e` recovers `normFloat`. -/
theorem pyParseFloatBody_render (neg : Bool) (n : Nat) (e : Nat) :
    pyParseFloatBody neg
      (if e = 0 then renderNat n ++ ['.', '0']
       else renderNat (n / 10 ^ e) ++ '.' :: padZeros e (renderNat (n % 10 ^ e)))
      = some (if neg then -(((normFloat n e).1 : Nat) : Int)
              else (((normFloat n e).1 : Nat) : Int), (normFloat n e).2) := by
  split
  · rename_i he
    subst he
    unfold pyParseFloatBody
    rw [show renderNat n ++ ['.', '0'] = renderNat n ++ '.' :: ['0'] from rfl]
    rw [takeWhile_append_all _ _ _ (renderNat_digits n),
      dropWhile_append_all _ _ _ (renderNat_digits n)]
    rw [List.takeWhile_cons_of_neg (by decide), List.dropWhile_cons_of_neg (by decide)]
    simp only [List.append_nil]
    rw [show List.takeWhile isDigitC ['0'] = ['0'] from by decide,
      show List.dropWhile isDigitC ['0'] = [] from by decide]
    rw [if_neg (by simp [renderNat_ne_nil n])]
    simp only [show parseExpPart [] = some 0 from rfl]
    have hval : natOfChars (renderNat n ++ ['0']) = n * 10 := by
      rw [natOfChars_append, natOfChars_renderNat]
      rw [show natOfChars ['0'] = 0 from by decide]
      simp
    rw [hval]
    have hs : (((['0'] : List Char).length : Int) - 0) = 1 := by decide
    rw [hs]
    unfold finishFloat
    rw [if_neg (by omega : ¬ ((1 : Int) ≤ 0))]
    rw [show ((1 : Int)).toNat = 1 from rfl]
    have hnf : normFloat (n * 10) 1 = (n, 0) := by
      rw [show normFloat (n * 10) 1
          = if n * 10 % 10 = 0 then normFloat (n * 10 / 10) 0 else (n * 10, 1) from rfl]
      rw [if_pos (by omega : n * 10 % 10 = 0)]
      rw [show normFloat (n * 10 / 10) 0 = (n * 10 / 10, 0) from rfl]
      congr 1
      omega
    rw [hnf]
    rfl
  · rename_i he
    unfold pyParseFloatBody
    rw [takeWhile_append_all _ _ _ (renderNat_digits _),
      dropWhile_append_all _ _ _ (renderNat_digits _)]
    rw [List.takeWhile_cons_of_neg (by decide), List.dropWhile_cons_of_neg (by decide)]
    simp only [List.append_nil]
    have hpadd : ∀ c ∈ padZeros e (renderNat (n % 10 ^ e)), isDigitC c = true :=
      padZeros_all_digits _ _ (renderNat_digits _)
    rw [takeWhile_all_eq _ _ hpadd, dropWhile_all_eq _ _ hpadd]
    rw [if_neg (by simp [renderNat_ne_nil])]
    simp only [show parseExpPart [] = some 0 from rfl]
    have hlen : (padZeros e (renderNat (n % 10 ^ e))).length = e := by
      apply padZeros_length
      rw [show renderNat (n % 10 ^ e) = (natDigits (n % 10 ^ e)).map digitChar from rfl,
        List.length_map]
      apply natDigits_length_le e _ (by omega)
      exact Nat.mod_lt _ (by positivity)
    have hval : natOfChars (renderNat (n / 10 ^ e) ++ padZeros e (renderNat (n % 10 ^ e)))
        = n := by
      rw [natOfChars_append, natOfChars_renderNat, natOfChars_padZeros,
        natOfChars_renderNat, hlen]
      rw [Nat.mul_comm]
      exact Nat.div_add_mod n (10 ^ e)
    rw [hval, hlen]
    unfold finishFloat
    rw [if_neg (by omega : ¬ ((e : Int) - 0 ≤ 0))]
    rw [show ((e : Int) - 0).toNat = e from by omega]


/-- `float(str(x)) = x` up to normalization: parsing a rendered float yields
its normalized pair. -/
theorem pyParseFloat_renderFloat (m : Int) (e : Nat) :
    pyParseFloat (renderFloat m e) = some (normPair m e) := by
  have hbody_eq : renderFloat m e = if m < 0 then
      '-' :: (if e = 0 then renderNat m.natAbs ++ ['.', '0']
        else renderNat (m.natAbs / 10 ^ e) ++ '.' :: padZeros e (renderNat (m.natAbs % 10 ^ e)))
    else (if e = 0 then renderNat m.natAbs ++ ['.', '0']
        else renderNat (m.natAbs / 10 ^ e) ++ '.' :: padZeros e (renderNat (m.natAbs % 10 ^ e))) := rfl
  rw [hbody_eq]
  split
  · rename_i hm
    rw [show pyParseFloat ('-' :: (if e = 0 then renderNat m.natAbs ++ ['.', '0']
        else renderNat (m.natAbs / 10 ^ e) ++ '.' :: padZeros e (renderNat (m.natAbs % 10 ^ e))))
        = pyParseFloatBody true (if e = 0 then renderNat m.natAbs ++ ['.', '0']
        else renderNat (m.natAbs / 10 ^ e) ++ '.' :: padZeros e (renderNat (m.natAbs % 10 ^ e))) from rfl]
    rw [pyParseFloatBody_render true m.natAbs e]
    unfold normPair
    simp [hm]
  · rename_i hm
    rw [pyParseFloat_no_sign _ (by
      intro c hc
      split at hc
      · exact head_digit_of_append_renderNat _ _ _ hc
      · exact head_digit_of_append_renderNat _ _ _ hc)]
    rw [pyParseFloatBody_render false m.natAbs e]
    unfold normPair
    simp [hm]

/-- Every successful mantissa parse is already normalized. -/
theorem pyParseFloatBody_normPair (neg : Bool) (cs : List Char) (y : Int × Nat)
    (h : pyParseFloatBody neg cs = some y) : normPair y.1 y.2 = y := by
  unfold pyParseFloatBody at h
  split at h <;>
    (split at h
     · exact Option.noConfusion h
     · split at h
       · exact Option.noConfusion h
       · injection h with h
         rw [← h]
         exact normPair_finishFloat _ _ _)

/-- Every successful `float()` parse is already normalized. -/
theorem pyParseFloat_normPair (cs : List Char) (y : Int × Nat)
    (h : pyParseFloat cs = some y) : normPair y.1 y.2 = y := by
  unfold pyParseFloat at h
  split at h <;> exact pyParseFloatBody_normPair _ _ _ h

/-- The head is a member. -/
theorem head?_mem {α : Type} (l : List α) (c : α) (h : l.head? = some c) : c ∈ l := by
  cases l with
  | nil => exact Option.noConfusion h
  | cons x xs =>
    injection h with h
    rw [← h]
    exact List.mem_cons_self _ _

/-- `dropWhile` keeps a list whose head fails the test. -/
theorem dropWhile_no {α : Type} (p : α → Bool) (l : List α)
    (h : ∀ c ∈ l, p c = false) : l.dropWhile p = l := by
  cases l with
  | nil => rfl
  | cons c cs =>
    exact List.dropWhile_cons_of_neg (by simp [h c (by simp)])

/-- `rstrip` keeps space-free text. -/
theorem pyRstrip_no_space (l : List Char) (h : ∀ c ∈ l, isPySpace c = false) :
    pyRstrip l = l := by
  induction l with
  | nil => rfl
  | cons c cs ih =>
    rw [show pyRstrip (c :: cs)
        = if (pyRstrip cs = []) && isPySpace c then [] else c :: pyRstrip cs from rfl]
    rw [ih (fun x hx => h x (by simp [hx]))]
    rw [if_neg (by simp [h c (by simp)])]

/-- `strip` keeps space-free text. -/
theorem pyStrip_no_space (l : List Char) (h : ∀ c ∈ l, isPySpace c = false) :
    pyStrip l = l := by
  unfold pyStrip
  rw [dropWhile_no _ _ h, pyRstrip_no_space _ h]

/-- Digits are not whitespace. -/
theorem isDigit_not_space (c : Char) (h : isDigitC c = true) : isPySpace c = false := by
  by_contra hsp
  rw [Bool.not_eq_false] at hsp
  unfold isPySpace at hsp
  simp only [Bool.or_eq_true, decide_eq_true_eq] at hsp
  rcases hsp with ((((h1 | h1) | h1) | h1) | h1) | h1 <;>
    (subst h1; exact absurd h (by decide))

/-- A rendered integer is a sign and digits. -/
theorem renderInt_chars (m : Int) : ∀ c ∈ renderInt m, c = '-' ∨ isDigitC c = true := by
  intro c hc
  unfold renderInt at hc
  split at hc
  · rcases List.mem_cons.mp hc with h1 | h2
    · exact Or.inl h1
    · exact Or.inr (renderNat_digits _ c h2)
  · exact Or.inr (renderNat_digits _ c hc)

/-- A rendered float is a sign, digits and the point. -/
theorem renderFloat_chars (m : Int) (e : Nat) :
    ∀ c ∈ renderFloat m e, c = '-' ∨ c = '.' ∨ isDigitC c = true := by
  intro c hc
  rw [show renderFloat m e = if m < 0 then '-' :: (if e = 0 then renderNat m.natAbs ++ ['.', '0']
      else renderNat (m.natAbs / 10 ^ e) ++
        '.' :: padZeros e (renderNat (m.natAbs % 10 ^ e)))
    else (if e = 0 then renderNat m.natAbs ++ ['.', '0']
      else renderNat (m.natAbs / 10 ^ e) ++
        '.' :: padZeros e (renderNat (m.natAbs % 10 ^ e))) from rfl] at hc
  have hbody : ∀ c', c' ∈ (if e = 0 then renderNat m.natAbs ++ ['.', '0']
      else renderNat (m.natAbs / 10 ^ e) ++
        '.' :: padZeros e (renderNat (m.natAbs % 10 ^ e))) →
      c' = '.' ∨ isDigitC c' = true := by
    intro c' hc'
    split at hc'
    · rcases List.mem_append.mp hc' with h1 | h2
      · exact Or.inr (renderNat_digits _ c' h1)
      · rcases List.mem_cons.mp h2 with h3 | h4
        · exact Or.inl h3
        · right
          rw [List.mem_singleton] at h4
          rw [h4]
          decide
    · rcases List.mem_append.mp hc' with h1 | h2
      · exact Or.inr (renderNat_digits _ c' h1)
      · rcases List.mem_cons.mp h2 with h3 | h4
        · exact Or.inl h3
        · exact Or.inr (padZeros_all_digits _ _ (renderNat_digits _) c' h4)
  split at hc
  · rcases List.mem_cons.mp hc with h1 | h2
    · exact Or.inl h1
    · rcases hbody c h2 with h | h
      · exact Or.inr (Or.inl h)
      · exact Or.inr (Or.inr h)
  · rcases hbody c hc with h | h
    · exact Or.inr (Or.inl h)
    · exact Or.inr (Or.inr h)

/-- A rendered integer has no whitespace. -/
theorem renderInt_no_space (m : Int) : ∀ c ∈ renderInt m, isPySpace c = false := by
  intro c hc
  rcases renderInt_chars m c hc with h | h
  · rw [h]; decide
  · exact isDigit_not_space c h

/-- A rendered float has no whitespace. -/
theorem renderFloat_no_space (m : Int) (e : Nat) :
    ∀ c ∈ renderFloat m e, isPySpace c = false := by
  intro c hc
  rcases renderFloat_chars m e c hc with h | h | h
  · rw [h]; decide
  · rw [h]; decide
  · exact isDigit_not_space c h

/-- A rendered integer does not start with a quote. -/
theorem renderInt_not_quote (m : Int) (c : Char)
    (h : (renderInt m).head? = some c) : ¬ c = '"' := by
  intro hq
  subst hq
  rcases renderInt_chars m '"' (head?_mem _ _ h) with h1 | h1
  · exact absurd h1 (by decide)
  · exact absurd h1 (by decide)

/-- A rendered float does not start with a quote. -/
theorem renderFloat_not_quote (m : Int) (e : Nat) (c : Char)
    (h : (renderFloat m e).head? = some c) : ¬ c = '"' := by
  intro hq
  subst hq
  rcases renderFloat_chars m e '"' (head?_mem _ _ h) with h1 | h1 | h1 <;>
    exact absurd h1 (by decide)

/-- `rstrip` output never ends in whitespace. -/
theorem pyRstrip_last (l : List Char) :
    ∀ c, (pyRstrip l).getLast? = some c → isPySpace c = false := by
  induction l with
  | nil => intro c hc; exact Option.noConfusion hc
  | cons a cs ih =>
    intro c hc
    rw [show pyRstrip (a :: cs)
        = if (pyRstrip cs = []) && isPySpace a then [] else a :: pyRstrip cs from rfl] at hc
    split at hc
    · exact Option.noConfusion hc
    · rename_i hcond
      by_cases hr : pyRstrip cs = []
      · rw [hr] at hc
        have hca : c = a := by
          have : ([a] : List Char).getLast? = some a := rfl
          rw [this] at hc
          injection hc with hc
          exact hc.symm
        rw [hca]
        rw [hr] at hcond
        simpa using hcond
      · rw [getLast?_cons_of_ne_nil _ _ hr] at hc
        exact ih c hc

/-- `rstrip` keeps the head of its output, when any. -/
theorem pyRstrip_head (l : List Char) :
    pyRstrip l = [] ∨ (pyRstrip l).head? = l.head? := by
  cases l with
  | nil => left; rfl
  | cons a cs =>
    rw [show pyRstrip (a :: cs)
        = if (pyRstrip cs = []) && isPySpace a then [] else a :: pyRstrip cs from rfl]
    split
    · left; rfl
    · right; rfl

/-- The head surviving `dropWhile` fails the test. -/
theorem dropWhile_head_not {α : Type} (p : α → Bool) (l : List α) (c : α)
    (h : (l.dropWhile p).head? = some c) : p c = false := by
  induction l with
  | nil => exact Option.noConfusion h
  | cons a cs ih =>
    by_cases hp : p a = true
    · rw [List.dropWhile_cons_of_pos hp] at h
      exact ih h
    · rw [List.dropWhile_cons_of_neg (by simp [hp])] at h
      injection h with h
      rw [← h]
      simpa using hp

/-- `rstrip` keeps text not ending in whitespace. -/
theorem pyRstrip_id_of_last (l : List Char)
    (h : ∀ c, l.getLast? = some c → isPySpace c = false) : pyRstrip l = l := by
  induction l with
  | nil => rfl
  | cons a cs ih =>
    rw [show pyRstrip (a :: cs)
        = if (pyRstrip cs = []) && isPySpace a then [] else a :: pyRstrip cs from rfl]
    cases hcs : cs with
    | nil =>
      subst hcs
      have ha := h a rfl
      rw [show pyRstrip ([] : List Char) = [] from rfl]
      rw [if_neg (by simp [ha])]
    | cons b bs =>
      have hcs' : cs ≠ [] := by rw [hcs]; simp
      have ihh : pyRstrip cs = cs :=
        ih (fun c hc => h c (by rw [getLast?_cons_of_ne_nil _ _ hcs']; exact hc))
      rw [← hcs, ihh, if_neg (by simp [hcs'])]

/-- Python `strip()` is idempotent. -/
theorem pyStrip_idem (l : List Char) : pyStrip (pyStrip l) = pyStrip l := by
  unfold pyStrip
  set u := pyRstrip (l.dropWhile isPySpace) with hu
  have hdrop : u.dropWhile isPySpace = u := by
    cases hh : u with
    | nil => rfl
    | cons a us =>
      apply List.dropWhile_cons_of_neg
      rcases pyRstrip_head (l.dropWhile isPySpace) with h1 | h1
      · rw [← hu] at h1
        rw [h1] at hh
        exact absurd hh (by simp)
      · rw [← hu] at h1
        have h2 : (l.dropWhile isPySpace).head? = some a := by
          rw [← h1, hh]
          rfl
        have := dropWhile_head_not isPySpace l a h2
        simp [this]
  rw [hdrop]
  exact pyRstrip_id_of_last u (fun c hc => pyRstrip_last _ c hc)

/-! ### Claim C7: idempotence of the Model Application Engine on stable trees -/

/-- On a string-like declared type, `_parse_typed_value` is exactly
`strCoerce`. -/
theorem parse_typed_string (raw : List Char) (ft : Value)
    (hft : fieldStringish ft = true) :
    _parse_typed_value raw ft = .ok (.str (String.mk (strCoerce raw))) := by
  unfold fieldStringish at hft
  simp only [Bool.not_eq_true', Bool.or_eq_false_iff, decide_eq_false_iff_not] at hft
  obtain ⟨⟨⟨⟨h1, h2⟩, h3⟩, h4⟩, h5⟩ := hft
  unfold _parse_typed_value
  rw [if_neg h1, if_neg h2, if_neg h3, if_neg h4, if_neg h5]
  unfold strCoerce
  split <;> rfl

/-- `strCoerce` fixes quote-free, whitespace-free text. -/
theorem strCoerce_fix (x : List Char) (hsp : ∀ c ∈ x, isPySpace c = false)
    (hq : ∀ c, x.head? = some c → ¬ c = '"') : strCoerce x = x := by
  unfold strCoerce
  rw [pyStrip_no_space x hsp]
  cases hh : x.head? with
  | none => simp [hh]
  | some c =>
    have hc := hq c hh
    simp [hh, hc]

/-- A rendered integer is a `strCoerce` fixpoint. -/
theorem strCoerce_renderInt (n : Int) : strCoerce (renderInt n) = renderInt n :=
  strCoerce_fix _ (renderInt_no_space n) (fun c h => renderInt_not_quote n c h)

/-- A rendered float is a `strCoerce` fixpoint. -/
theorem strCoerce_renderFloat (m : Int) (e : Nat) :
    strCoerce (renderFloat m e) = renderFloat m e :=
  strCoerce_fix _ (renderFloat_no_space m e) (fun c h => renderFloat_not_quote m e c h)

/-- A successful `bool`-typed parse yields a value the coercion fixes: the
re-parse of `str(True)`/`str(False)` fails (Python renders capitalized) and
the except branch keeps the value. -/
theorem coerce_stable_bool (fd : FieldDefinition)
    (hft : fd.field_type = .str "bool") (raw : List Char) (w : Value)
    (hp : _parse_typed_value raw fd.field_type = .ok w) :
    coerceScalar fd w = w := by
  rw [hft] at hp
  unfold _parse_typed_value at hp
  rw [if_pos rfl] at hp
  split at hp
  · injection hp with hp
    subst hp
    unfold coerceScalar
    rw [hft]
    rfl
  · split at hp
    · injection hp with hp
      subst hp
      unfold coerceScalar
      rw [hft]
      rfl
    · exact Except.noConfusion hp

/-- A successful `int`-typed parse yields an integer value, and the re-parse
of its rendering recovers it. -/
theorem coerce_stable_int (fd : FieldDefinition)
    (hft : fd.field_type = .str "int") (raw : List Char) (w : Value)
    (hp : _parse_typed_value raw fd.field_type = .ok w) :
    coerceScalar fd w = w := by
  rw [hft] at hp
  unfold _parse_typed_value at hp
  rw [if_neg (by decide), if_pos rfl] at hp
  cases hn : pyParseInt (pyStrip raw) with
  | none => rw [hn] at hp; exact Except.noConfusion hp
  | some n =>
    rw [hn] at hp
    injection hp with hp
    subst hp
    unfold coerceScalar
    rw [hft]
    have hpv : _parse_typed_value (pyStr (Value.int n)) (Value.str "int")
        = .ok (Value.int n) := by
      unfold _parse_typed_value
      rw [if_neg (by decide), if_pos rfl,
        show pyStr (Value.int n) = renderInt n from rfl,
        pyStrip_no_space _ (renderInt_no_space n), pyParseInt_renderInt]
    rw [hpv]

/-- Lowercasing leaves a digit unchanged. -/
theorem asciiLower_digit (c : Char) (h : isDigitC c = true) : asciiLower c = c := by
  unfold isDigitC at h
  simp only [Bool.and_eq_true, decide_eq_true_eq] at h
  unfold asciiLower
  rw [if_neg]
  simp only [Bool.and_eq_true, decide_eq_true_eq, not_and]
  intro hA
  exact absurd (le_trans hA h.2) (by decide)

/-- Text made of dots and digits matches no special float form. -/
theorem not_special_of_chars (neg : Bool) (cs : List Char)
    (h : ∀ c ∈ cs, c = '.' ∨ isDigitC c = true) :
    pyFloatSpecialBody neg cs = none := by
  have key : ∀ t : List Char, 'n' ∈ t ∨ 'i' ∈ t → ¬ cs.map asciiLower = t := by
    intro t ht heq
    rcases ht with hn | hn
    all_goals {
      rw [← heq] at hn
      obtain ⟨c, hc, hlc⟩ := List.mem_map.mp hn
      rcases h c hc with h1 | h1
      · rw [h1] at hlc
        exact absurd hlc (by decide)
      · rw [asciiLower_digit c h1] at hlc
        rw [hlc] at h1
        exact absurd h1 (by decide)
    }
  unfold pyFloatSpecialBody
  rw [if_neg (by
    simp only [Bool.or_eq_true, decide_eq_true_eq]
    intro hor
    rcases hor with h1 | h1
    · exact key "inf".data (Or.inr (by decide)) h1
    · exact key "infinity".data (Or.inr (by decide)) h1)]
  rw [if_neg (by
    simp only [decide_eq_true_eq]
    intro h1
    exact key "nan".data (Or.inl (by decide)) h1)]

/-- A rendered (finite) float is never taken for a special form. -/
theorem pyFloatSpecial_renderFloat (m : Int) (e : Nat) :
    pyFloatSpecial (renderFloat m e) = none := by
  have hB : ∀ c ∈ (if e = 0 then renderNat m.natAbs ++ ['.', '0']
      else renderNat (m.natAbs / 10 ^ e) ++ '.' ::
        padZeros e (renderNat (m.natAbs % 10 ^ e))),
      c = '.' ∨ isDigitC c = true := by
    intro c hc
    split at hc
    · rcases List.mem_append.mp hc with h1 | h1
      · exact Or.inr (renderNat_digits _ c h1)
      · rcases List.mem_cons.mp h1 with h2 | h2
        · exact Or.inl h2
        · rw [List.mem_singleton.mp h2]
          exact Or.inr (by decide)
    · rcases List.mem_append.mp hc with h1 | h1
      · exact Or.inr (renderNat_digits _ c h1)
      · rcases List.mem_cons.mp h1 with h2 | h2
        · exact Or.inl h2
        · exact Or.inr (padZeros_all_digits _ _ (renderNat_digits _) c h2)
  rw [show renderFloat m e = if m < 0 then
      '-' :: (if e = 0 then renderNat m.natAbs ++ ['.', '0']
        else renderNat (m.natAbs / 10 ^ e) ++ '.' ::
          padZeros e (renderNat (m.natAbs % 10 ^ e)))
    else (if e = 0 then renderNat m.natAbs ++ ['.', '0']
        else renderNat (m.natAbs / 10 ^ e) ++ '.' ::
          padZeros e (renderNat (m.natAbs % 10 ^ e))) from rfl]
  split
  · rw [show pyFloatSpecial ('-' :: (if e = 0 then renderNat m.natAbs ++ ['.', '0']
        else renderNat (m.natAbs / 10 ^ e) ++ '.' ::
          padZeros e (renderNat (m.natAbs % 10 ^ e))))
      = pyFloatSpecialBody true (if e = 0 then renderNat m.natAbs ++ ['.', '0']
        else renderNat (m.natAbs / 10 ^ e) ++ '.' ::
          padZeros e (renderNat (m.natAbs % 10 ^ e))) from rfl]
    exact not_special_of_chars true _ hB
  · have hhead : ∀ c, (if e = 0 then renderNat m.natAbs ++ ['.', '0']
        else renderNat (m.natAbs / 10 ^ e) ++ '.' ::
          padZeros e (renderNat (m.natAbs % 10 ^ e))).head? = some c →
        isDigitC c = true := by
      intro c hc
      split at hc
      · exact head_digit_of_append_renderNat _ _ _ hc
      · exact head_digit_of_append_renderNat _ _ _ hc
    cases hB' : (if e = 0 then renderNat m.natAbs ++ ['.', '0']
        else renderNat (m.natAbs / 10 ^ e) ++ '.' ::
          padZeros e (renderNat (m.natAbs % 10 ^ e))) with
    | nil => rfl
    | cons c0 rest =>
      have hc0 : isDigitC c0 = true := hhead c0 (by rw [hB']; rfl)
      have hB2 : ∀ c ∈ c0 :: rest, c = '.' ∨ isDigitC c = true := by
        rw [← hB']
        exact hB
      unfold pyFloatSpecial
      split
      · rename_i heq
        injection heq with h1 h2
        rw [h1] at hc0
        exact absurd hc0 (by decide)
      · rename_i heq
        injection heq with h1 h2
        rw [h1] at hc0
        exact absurd hc0 (by decide)
      · exact not_special_of_chars false _ hB2

/-- A special-form parse yields no container. -/
theorem pyFloatSpecial_not_container (cs : List Char) (w : Value)
    (h : pyFloatSpecial cs = some w) :
    (∀ sub, w ≠ Value.map sub) ∧ (∀ xs, w ≠ Value.list xs) := by
  unfold pyFloatSpecial pyFloatSpecialBody at h
  repeat' split at h
  all_goals first
    | exact Option.noConfusion h
    | (injection h with h; subst h;
       exact ⟨fun _ hh => Value.noConfusion hh, fun _ hh => Value.noConfusion hh⟩)

/-- A special-form parse yields only NaN or a signed infinity. -/
theorem pyFloatSpecial_shape (cs : List Char) (w : Value)
    (h : pyFloatSpecial cs = some w) :
    w = Value.nan ∨ ∃ neg, w = Value.inf neg := by
  unfold pyFloatSpecial pyFloatSpecialBody at h
  repeat' split at h
  all_goals first
    | exact Option.noConfusion h
    | (injection h with h; subst h; exact Or.inl rfl)
    | (injection h with h; subst h; exact Or.inr ⟨_, rfl⟩)

/-- The NaN float re-parses to itself at a float-typed field. -/
theorem parse_float_nan :
    _parse_typed_value (pyStr Value.nan) (Value.str "float") = .ok Value.nan := by
  rfl

/-- An infinite float re-parses to itself at a float-typed field. -/
theorem parse_float_inf (neg : Bool) :
    _parse_typed_value (pyStr (Value.inf neg)) (Value.str "float")
      = .ok (Value.inf neg) := by
  cases neg <;> rfl

/-- A successful `float`-typed parse yields a normalized float value, and the
re-parse of its rendering recovers exactly it. -/
theorem coerce_stable_float (fd : FieldDefinition)
    (hft : fd.field_type = .str "float") (raw : List Char) (w : Value)
    (hp : _parse_typed_value raw fd.field_type = .ok w) :
    coerceScalar fd w = w := by
  rw [hft] at hp
  unfold _parse_typed_value at hp
  rw [if_neg (by decide), if_neg (by decide), if_pos rfl] at hp
  cases hs : pyFloatSpecial (pyStrip raw) with
  | some u =>
    rw [hs] at hp
    injection hp with hp
    subst hp
    rcases pyFloatSpecial_shape _ u hs with h | ⟨neg, h⟩
    · subst h
      unfold coerceScalar
      rw [hft, parse_float_nan]
    · subst h
      unfold coerceScalar
      rw [hft, parse_float_inf neg]
  | none =>
    rw [hs] at hp
    cases hn : pyParseFloat (pyStrip raw) with
    | none => rw [hn] at hp; exact Except.noConfusion hp
    | some p =>
      rw [hn] at hp
      injection hp with hp
      subst hp
      unfold coerceScalar
      rw [hft]
      have hpv : _parse_typed_value (pyStr (Value.float p.1 p.2)) (Value.str "float")
          = .ok (Value.float p.1 p.2) := by
        unfold _parse_typed_value
        rw [if_neg (by decide), if_neg (by decide), if_pos rfl,
          show pyStr (Value.float p.1 p.2) = renderFloat p.1 p.2 from rfl,
          pyStrip_no_space _ (renderFloat_no_space p.1 p.2),
          pyFloatSpecial_renderFloat, pyParseFloat_renderFloat,
          pyParseFloat_normPair _ p hn]
      rw [hpv]

/-- A successful `date`-typed parse yields the stripped text, which re-parses
to itself since stripping is idempotent. -/
theorem coerce_stable_date (fd : FieldDefinition)
    (hft : fd.field_type = .str "date") (raw : List Char) (w : Value)
    (hp : _parse_typed_value raw fd.field_type = .ok w) :
    coerceScalar fd w = w := by
  rw [hft] at hp
  unfold _parse_typed_value at hp
  rw [if_neg (by decide), if_neg (by decide), if_neg (by decide), if_pos rfl] at hp
  split at hp
  · rename_i hmatch
    injection hp with hp
    subst hp
    unfold coerceScalar
    rw [hft]
    have hpv : _parse_typed_value (pyStr (Value.str (String.mk (pyStrip raw))))
        (Value.str "date") = .ok (Value.str (String.mk (pyStrip raw))) := by
      unfold _parse_typed_value
      rw [if_neg (by decide), if_neg (by decide), if_neg (by decide), if_pos rfl,
        show pyStr (Value.str (String.mk (pyStrip raw))) = pyStrip raw from rfl,
        pyStrip_idem, if_pos hmatch]
    rw [hpv]
  · exact Except.noConfusion hp

/-- A successful `datetime`-typed parse yields the stripped text, which
re-parses to itself since stripping is idempotent. -/
theorem coerce_stable_datetime (fd : FieldDefinition)
    (hft : fd.field_type = .str "datetime") (raw : List Char) (w : Value)
    (hp : _parse_typed_value raw fd.field_type = .ok w) :
    coerceScalar fd w = w := by
  rw [hft] at hp
  unfold _parse_typed_value at hp
  rw [if_neg (by decide), if_neg (by decide), if_neg (by decide),
    if_neg (by decide), if_pos rfl] at hp
  split at hp
  · rename_i hmatch
    injection hp with hp
    subst hp
    unfold coerceScalar
    rw [hft]
    have hpv : _parse_typed_value (pyStr (Value.str (String.mk (pyStrip raw))))
        (Value.str "datetime") = .ok (Value.str (String.mk (pyStrip raw))) := by
      unfold _parse_typed_value
      rw [if_neg (by decide), if_neg (by decide), if_neg (by decide),
        if_neg (by decide), if_pos rfl,
        show pyStr (Value.str (String.mk (pyStrip raw))) = pyStrip raw from rfl,
        pyStrip_idem, if_pos hmatch]
    rw [hpv]
  · exact Except.noConfusion hp

/-- A successful string-branch parse yields the coerced text, which re-parses
to itself when one more coercion pass is a no-op. -/
theorem coerce_stable_string (fd : FieldDefinition)
    (hft : fieldStringish fd.field_type = true) (raw : List Char) (w : Value)
    (hp : _parse_typed_value raw fd.field_type = .ok w)
    (hst : strCoerce (strCoerce raw) = strCoerce raw) :
    coerceScalar fd w = w := by
  rw [parse_typed_string raw _ hft] at hp
  injection hp with hp
  subst hp
  unfold coerceScalar
  rw [show pyStr (Value.str (String.mk (strCoerce raw))) = strCoerce raw from rfl,
    parse_typed_string _ _ hft, hst]

/-- Scalar coercion is idempotent on scalars whose string coercion (when the
declared type is string-like) is stable. -/
theorem coerceScalar_idem (fd : FieldDefinition) (v : Value)
    (hm : ∀ sub, v ≠ Value.map sub) (hl : ∀ xs, v ≠ Value.list xs)
    (hstr : ∀ s, v = Value.str s → fieldStringish fd.field_type = true →
      strCoerce (strCoerce s.data) = strCoerce s.data) :
    coerceScalar fd (coerceScalar fd v) = coerceScalar fd v := by
  cases hp : _parse_typed_value (pyStr v) fd.field_type with
  | error e =>
    have h1 : coerceScalar fd v = v := by unfold coerceScalar; rw [hp]
    rw [h1]
    exact h1
  | ok w =>
    have h1 : coerceScalar fd v = w := by unfold coerceScalar; rw [hp]
    rw [h1]
    by_cases h1t : fd.field_type = Value.str "bool"
    · exact coerce_stable_bool fd h1t _ w hp
    by_cases h2t : fd.field_type = Value.str "int"
    · exact coerce_stable_int fd h2t _ w hp
    by_cases h3t : fd.field_type = Value.str "float"
    · exact coerce_stable_float fd h3t _ w hp
    by_cases h4t : fd.field_type = Value.str "date"
    · exact coerce_stable_date fd h4t _ w hp
    by_cases h5t : fd.field_type = Value.str "datetime"
    · exact coerce_stable_datetime fd h5t _ w hp
    have hft : fieldStringish fd.field_type = true := by
      unfold fieldStringish
      simp [h1t, h2t, h3t, h4t, h5t]
    refine coerce_stable_string fd hft _ w hp ?_
    cases v with
    | map sub => exact absurd rfl (hm sub)
    | list xs => exact absurd rfl (hl xs)
    | str s => exact hstr s rfl hft
    | bool b =>
      cases b
      · show strCoerce (strCoerce "False".data) = strCoerce "False".data
        decide
      · show strCoerce (strCoerce "True".data) = strCoerce "True".data
        decide
    | int n =>
      rw [show pyStr (Value.int n) = renderInt n from rfl, strCoerce_renderInt,
        strCoerce_renderInt]
    | float mm ee =>
      rw [show pyStr (Value.float mm ee) = renderFloat mm ee from rfl,
        strCoerce_renderFloat, strCoerce_renderFloat]
    | nan =>
      show strCoerce (strCoerce "nan".data) = strCoerce "nan".data
      decide
    | inf neg =>
      cases neg
      · show strCoerce (strCoerce "inf".data) = strCoerce "inf".data
        decide
      · show strCoerce (strCoerce "-inf".data) = strCoerce "-inf".data
        decide

/-- `d[k] = v` appends when the key is absent. -/
theorem dictInsert_of_not_mem (d : List (String × Value)) (k : String)
    (v : Value) (h : ∀ e ∈ d, e.1 ≠ k) : dictInsert d k v = d ++ [(k, v)] := by
  unfold dictInsert
  rw [if_neg]
  simp only [List.any_eq_true, decide_eq_true_eq, not_exists]
  intro e
  intro he
  exact absurd he.2 (h e he.1)

/-- With self-resolving, pairwise-distinct keys disjoint from the
accumulator, the entry loop of `_apply_model_to_dict` appends the
entrywise-transformed entries in order. -/
theorem applyGo_resolved (m : ModelDefinition) (acc d : List (String × Value))
    (hres : ∀ e ∈ d, resolveKey m e.1 = e.1)
    (hnd : List.Pairwise (fun a b => a.1 ≠ b.1) d)
    (hdisj : ∀ e ∈ d, ∀ a ∈ acc, a.1 ≠ e.1) :
    applyGo m acc d = acc ++ d.map (fun e => (e.1, applyEntryValue m e.1 e.2)) := by
  induction d generalizing acc with
  | nil => simp [applyGo]
  | cons e rest ih =>
    obtain ⟨k, v⟩ := e
    obtain ⟨hhead, htail⟩ := List.pairwise_cons.mp hnd
    have hk : resolveKey m k = k := hres (k, v) (by simp)
    simp only [applyGo]
    rw [hk, dictInsert_of_not_mem acc k _
      (fun a ha => hdisj (k, v) (by simp) a ha)]
    rw [ih (acc ++ [(k, applyEntryValue m k v)])
      (fun e he => hres e (by simp [he])) htail ?_]
    · simp
    · intro e he a ha
      rcases List.mem_append.mp ha with h1 | h1
      · exact hdisj e (by simp [he]) a h1
      · rw [List.mem_singleton.mp h1]
        exact hhead e he

/-- Unpack one step of `treeStable`. -/
theorem treeStable_cons (m : ModelDefinition) (k : String) (v : Value)
    (rest : List (String × Value)) (h : treeStable m ((k, v) :: rest) = true) :
    resolveKey m k = k ∧ (∀ e ∈ rest, e.1 ≠ k) ∧ valStable m k v = true ∧
      treeStable m rest = true := by
  simp only [treeStable, Bool.and_eq_true, decide_eq_true_eq, Bool.not_eq_true',
    List.any_eq_false, decide_eq_false_iff_not] at h
  exact ⟨h.1.1.1, h.1.1.2, h.1.2, h.2⟩

/-- Every key of a stable tree resolves to itself. -/
theorem treeStable_res (m : ModelDefinition) (d : List (String × Value))
    (h : treeStable m d = true) : ∀ e ∈ d, resolveKey m e.1 = e.1 := by
  induction d with
  | nil => intro e he; exact absurd he (List.not_mem_nil e)
  | cons a rest ih =>
    obtain ⟨k, v⟩ := a
    obtain ⟨h1, _, _, h4⟩ := treeStable_cons m k v rest h
    intro e he
    rcases List.mem_cons.mp he with hh | hh
    · rw [hh]; exact h1
    · exact ih h4 e hh

/-- The keys of a stable tree are pairwise distinct. -/
theorem treeStable_pairwise (m : ModelDefinition) (d : List (String × Value))
    (h : treeStable m d = true) : List.Pairwise (fun a b => a.1 ≠ b.1) d := by
  induction d with
  | nil => exact List.Pairwise.nil
  | cons a rest ih =>
    obtain ⟨k, v⟩ := a
    obtain ⟨_, h2, _, h4⟩ := treeStable_cons m k v rest h
    exact List.pairwise_cons.mpr ⟨fun b hb => (h2 b hb).symm, ih h4⟩

/-- Every value of a stable tree is stable at its key. -/
theorem treeStable_val (m : ModelDefinition) (d : List (String × Value))
    (h : treeStable m d = true) : ∀ e ∈ d, valStable m e.1 e.2 = true := by
  induction d with
  | nil => intro e he; exact absurd he (List.not_mem_nil e)
  | cons a rest ih =>
    obtain ⟨k, v⟩ := a
    obtain ⟨_, _, h3, h4⟩ := treeStable_cons m k v rest h
    intro e he
    rcases List.mem_cons.mp he with hh | hh
    · rw [hh]; exact h3
    · exact ih h4 e hh

/-- An entry's value is smaller than the entry list. -/
theorem sizeOf_val_lt (d : List (String × Value)) (e : String × Value)
    (he : e ∈ d) : sizeOf e.2 < sizeOf d := by
  induction d with
  | nil => exact absurd he (List.not_mem_nil e)
  | cons a rest ih =>
    rcases List.mem_cons.mp he with h | h
    · subst h
      obtain ⟨k, v⟩ := e
      simp
      omega
    · have h1 := ih h
      have h2 : sizeOf rest < sizeOf (a :: rest) := by simp
      omega

/-- A list item is smaller than the list. -/
theorem sizeOf_item_lt (xs : List Value) (x : Value) (hx : x ∈ xs) :
    sizeOf x < sizeOf xs := by
  induction xs with
  | nil => exact absurd hx (List.not_mem_nil x)
  | cons a rest ih =>
    rcases List.mem_cons.mp hx with h | h
    · subst h
      simp
      omega
    · have h1 := ih h
      have h2 : sizeOf rest < sizeOf (a :: rest) := by simp
      omega

/-- Under self-resolving, pairwise-distinct keys, the engine is an
entrywise map. -/
theorem apply_eq_map (m : ModelDefinition) (d : List (String × Value))
    (hres : ∀ e ∈ d, resolveKey m e.1 = e.1)
    (hnd : List.Pairwise (fun a b => a.1 ≠ b.1) d) :
    _apply_model_to_dict m d
      = d.map (fun e => (e.1, applyEntryValue m e.1 e.2)) := by
  unfold _apply_model_to_dict
  rw [applyGo_resolved m [] d hres hnd (fun e _ a ha => absurd ha (List.not_mem_nil a))]
  simp

/-- A typed parse never yields a container. -/
theorem parse_typed_not_container (raw : List Char) (ft : Value) (w : Value)
    (hp : _parse_typed_value raw ft = .ok w) :
    (∀ sub, w ≠ Value.map sub) ∧ (∀ xs, w ≠ Value.list xs) := by
  unfold _parse_typed_value at hp
  simp only [] at hp
  repeat' split at hp
  all_goals first
    | exact Except.noConfusion hp
    | (injection hp with hp; subst hp;
       exact ⟨fun _ h => Value.noConfusion h, fun _ h => Value.noConfusion h⟩)
    | (injection hp with hp; subst hp;
       exact pyFloatSpecial_not_container _ _ (by assumption))

/-- Scalar coercion never yields a container (for a scalar input). -/
theorem coerceScalar_not_container (fd : FieldDefinition) (v : Value)
    (hm : ∀ sub, v ≠ Value.map sub) (hl : ∀ xs, v ≠ Value.list xs) :
    (∀ sub, coerceScalar fd v ≠ Value.map sub) ∧
      (∀ xs, coerceScalar fd v ≠ Value.list xs) := by
  unfold coerceScalar
  cases hp : _parse_typed_value (pyStr v) fd.field_type with
  | error e => exact ⟨hm, hl⟩
  | ok w => exact parse_typed_not_container _ _ w hp

/-- On a scalar whose resolved key has a field definition, the per-entry
transform is exactly scalar coercion. -/
theorem applyEntryValue_scalar_some (m : ModelDefinition) (k : String)
    (v : Value) (fd : FieldDefinition)
    (hm : ∀ sub, v ≠ Value.map sub) (hl : ∀ xs, v ≠ Value.list xs)
    (hfd : assocGet m.fields (resolveKey m k) = some fd) :
    applyEntryValue m k v = coerceScalar fd v := by
  cases v with
  | map sub => exact absurd rfl (hm sub)
  | list xs => exact absurd rfl (hl xs)
  | bool b => simp only [applyEntryValue, hfd]
  | int n => simp only [applyEntryValue, hfd]
  | float mm ee => simp only [applyEntryValue, hfd]
  | nan => simp only [applyEntryValue, hfd]
  | inf neg => simp only [applyEntryValue, hfd]
  | str s => simp only [applyEntryValue, hfd]

/-- On a scalar whose resolved key has no field definition, the per-entry
transform is the identity. -/
theorem applyEntryValue_scalar_none (m : ModelDefinition) (k : String)
    (v : Value)
    (hm : ∀ sub, v ≠ Value.map sub) (hl : ∀ xs, v ≠ Value.list xs)
    (hfd : assocGet m.fields (resolveKey m k) = none) :
    applyEntryValue m k v = v := by
  cases v with
  | map sub => exact absurd rfl (hm sub)
  | list xs => exact absurd rfl (hl xs)
  | bool b => simp only [applyEntryValue, hfd]
  | int n => simp only [applyEntryValue, hfd]
  | float mm ee => simp only [applyEntryValue, hfd]
  | nan => simp only [applyEntryValue, hfd]
  | inf neg => simp only [applyEntryValue, hfd]
  | str s => simp only [applyEntryValue, hfd]

/-- The per-entry transform is idempotent on stable scalars. -/
theorem applyEntryValue_scalar_idem (m : ModelDefinition) (k : String)
    (v : Value)
    (hm : ∀ sub, v ≠ Value.map sub) (hl : ∀ xs, v ≠ Value.list xs)
    (hstr : ∀ s, v = Value.str s → ∀ fd,
      assocGet m.fields (resolveKey m k) = some fd →
      fieldStringish fd.field_type = true →
      strCoerce (strCoerce s.data) = strCoerce s.data) :
    applyEntryValue m k (applyEntryValue m k v) = applyEntryValue m k v := by
  cases hfd : assocGet m.fields (resolveKey m k) with
  | none =>
    have h1 := applyEntryValue_scalar_none m k v hm hl hfd
    rw [h1]
    exact h1
  | some fd =>
    have h1 := applyEntryValue_scalar_some m k v fd hm hl hfd
    obtain ⟨hwm, hwl⟩ := coerceScalar_not_container fd v hm hl
    rw [h1, applyEntryValue_scalar_some m k _ fd hwm hwl hfd]
    exact coerceScalar_idem fd v hm hl (fun s hs hf => hstr s hs fd hfd hf)

/-- A second pass over list items is a no-op, given idempotence on the
strictly smaller stable sub-dicts. -/
theorem applyItems_idem (m : ModelDefinition) (n : Nat)
    (IH : ∀ d : List (String × Value), sizeOf d ≤ n → treeStable m d = true →
      _apply_model_to_dict m (_apply_model_to_dict m d) = _apply_model_to_dict m d)
    (xs : List Value) (hsz : sizeOf xs ≤ n) (hx : listStable m xs = true) :
    applyItems m (applyItems m xs) = applyItems m xs := by
  induction xs with
  | nil => simp [applyItems]
  | cons x rest ih =>
    have hszrest : sizeOf rest ≤ n := by
      have : sizeOf rest < sizeOf (x :: rest) := by simp
      omega
    cases x with
    | map sub =>
      have hparts : treeStable m sub = true ∧ listStable m rest = true := by
        simpa [listStable, Bool.and_eq_true] using hx
      have hszsub : sizeOf sub ≤ n := by
        have h1 : sizeOf (Value.map sub) < sizeOf (Value.map sub :: rest) := by
          simp
          omega
        have h2 : sizeOf sub < sizeOf (Value.map sub) := by simp
        omega
      simp only [applyItems]
      rw [IH sub hszsub hparts.1, ih hszrest hparts.2]
    | bool b =>
      have hrest : listStable m rest = true := by simpa [listStable] using hx
      simp only [applyItems]
      rw [ih hszrest hrest]
    | int nn =>
      have hrest : listStable m rest = true := by simpa [listStable] using hx
      simp only [applyItems]
      rw [ih hszrest hrest]
    | float mm ee =>
      have hrest : listStable m rest = true := by simpa [listStable] using hx
      simp only [applyItems]
      rw [ih hszrest hrest]
    | nan =>
      have hrest : listStable m rest = true := by simpa [listStable] using hx
      simp only [applyItems]
      rw [ih hszrest hrest]
    | inf neg =>
      have hrest : listStable m rest = true := by simpa [listStable] using hx
      simp only [applyItems]
      rw [ih hszrest hrest]
    | str s =>
      have hrest : listStable m rest = true := by simpa [listStable] using hx
      simp only [applyItems]
      rw [ih hszrest hrest]
    | list ys =>
      have hrest : listStable m rest = true := by simpa [listStable] using hx
      simp only [applyItems]
      rw [ih hszrest hrest]

/-- The per-entry transform is idempotent on stable values, given idempotence
on the strictly smaller stable sub-dicts. -/
theorem applyEntryValue_idem (m : ModelDefinition) (n : Nat)
    (IH : ∀ d : List (String × Value), sizeOf d ≤ n → treeStable m d = true →
      _apply_model_to_dict m (_apply_model_to_dict m d) = _apply_model_to_dict m d)
    (k : String) (v : Value) (hsz : sizeOf v ≤ n) (hv : valStable m k v = true) :
    applyEntryValue m k (applyEntryValue m k v) = applyEntryValue m k v := by
  cases v with
  | map sub =>
    have hsub : treeStable m sub = true := by simpa [valStable] using hv
    have hszsub : sizeOf sub ≤ n := by
      have : sizeOf sub < sizeOf (Value.map sub) := by simp
      omega
    simp only [applyEntryValue]
    rw [IH sub hszsub hsub]
  | list xs =>
    have hxs : listStable m xs = true := by simpa [valStable] using hv
    have hszxs : sizeOf xs ≤ n := by
      have : sizeOf xs < sizeOf (Value.list xs) := by simp
      omega
    simp only [applyEntryValue]
    rw [applyItems_idem m n IH xs hszxs hxs]
  | bool b =>
    exact applyEntryValue_scalar_idem m k (Value.bool b)
      (fun _ h => Value.noConfusion h) (fun _ h => Value.noConfusion h)
      (fun s hs => Value.noConfusion hs)
  | int nn =>
    exact applyEntryValue_scalar_idem m k (Value.int nn)
      (fun _ h => Value.noConfusion h) (fun _ h => Value.noConfusion h)
      (fun s hs => Value.noConfusion hs)
  | float mm ee =>
    exact applyEntryValue_scalar_idem m k (Value.float mm ee)
      (fun _ h => Value.noConfusion h) (fun _ h => Value.noConfusion h)
      (fun s hs => Value.noConfusion hs)
  | nan =>
    exact applyEntryValue_scalar_idem m k Value.nan
      (fun _ h => Value.noConfusion h) (fun _ h => Value.noConfusion h)
      (fun s hs => Value.noConfusion hs)
  | inf neg =>
    exact applyEntryValue_scalar_idem m k (Value.inf neg)
      (fun _ h => Value.noConfusion h) (fun _ h => Value.noConfusion h)
      (fun s hs => Value.noConfusion hs)
  | str s =>
    refine applyEntryValue_scalar_idem m k (Value.str s)
      (fun _ h => Value.noConfusion h) (fun _ h => Value.noConfusion h) ?_
    intro s' hs' fd hfd hf
    have hss : s' = s := by injection hs' with h; exact h.symm
    subst hss
    have hnf : ¬ fd.field_type = Value.str "float" := by
      intro hh
      rw [hh] at hf
      exact absurd hf (by decide)
    simp only [valStable, hfd, if_neg hnf] at hv
    rcases Bool.or_eq_true_iff.mp hv with h | h
    · rw [hf] at h
      exact absurd h (by decide)
    · exact of_decide_eq_true h

/-- Idempotence of the engine on stable trees, by strong induction on
size. -/
theorem applyIdemAux (m : ModelDefinition) :
    ∀ n, ∀ d : List (String × Value), sizeOf d ≤ n → treeStable m d = true →
      _apply_model_to_dict m (_apply_model_to_dict m d)
        = _apply_model_to_dict m d := by
  intro n
  induction n with
  | zero =>
    intro d hle _
    exact absurd hle (by cases d <;> simp)
  | succ n ih =>
    intro d hle ht
    have hres := treeStable_res m d ht
    have hnd := treeStable_pairwise m d ht
    have hval := treeStable_val m d ht
    have e1 : _apply_model_to_dict m d
        = d.map (fun e => (e.1, applyEntryValue m e.1 e.2)) :=
      apply_eq_map m d hres hnd
    have hres2 : ∀ e ∈ d.map (fun e => (e.1, applyEntryValue m e.1 e.2)),
        resolveKey m e.1 = e.1 := by
      intro e he
      obtain ⟨a, ha, rfl⟩ := List.mem_map.mp he
      exact hres a ha
    have hnd2 : List.Pairwise (fun a b => a.1 ≠ b.1)
        (d.map (fun e => (e.1, applyEntryValue m e.1 e.2))) := by
      rw [List.pairwise_map]
      exact hnd
    have e2 : _apply_model_to_dict m
          (d.map (fun e => (e.1, applyEntryValue m e.1 e.2)))
        = (d.map (fun e => (e.1, applyEntryValue m e.1 e.2))).map
            (fun e => (e.1, applyEntryValue m e.1 e.2)) :=
      apply_eq_map m _ hres2 hnd2
    rw [e1, e2, List.map_map]
    apply List.map_congr_left
    intro e he
    obtain ⟨k, v⟩ := e
    have hszv : sizeOf v ≤ n := by
      have h2 : sizeOf v < sizeOf d := by simpa using sizeOf_val_lt d (k, v) he
      omega
    have hidem := applyEntryValue_idem m n ih k v hszv (hval (k, v) he)
    simp only [Function.comp]
    rw [hidem]

/-- The float branch models Python `float()`'s special forms: the engine
coerces the string `nan` at a float-typed field to the NaN float
(`float('nan')` succeeds in Python), and precisely the NaN-producing inputs
fail the stability hypothesis — re-application would manufacture a fresh
Python `nan`, and `nan != nan`, so the program's second output compares
unequal under Python `==`. -/
theorem nan_coercion_modeled :
    _apply_model_to_dict floatModel [("x", Value.str "nan")] = [("x", Value.nan)] ∧
    treeStable floatModel [("x", Value.str "nan")] = false ∧
    treeStable floatModel [("x", Value.nan)] = false := by
  refine ⟨?_, ?_, ?_⟩
  · simp [_apply_model_to_dict, applyGo, applyEntryValue, coerceScalar,
      resolveKey, aliasGet, assocGet, _parse_typed_value, pyStr, pyStrip,
      pyRstrip, isPySpace, dictInsert, floatModel, pyFloatSpecial,
      pyFloatSpecialBody, asciiLower]
  · simp [treeStable, valStable, resolveKey, aliasGet, assocGet, floatModel,
      pyStrip, pyRstrip, isPySpace, pyFloatSpecial, pyFloatSpecialBody,
      asciiLower]
  · simp [treeStable, valStable, resolveKey, aliasGet, assocGet, floatModel]

/-- C7 counterexample: the spec claims idempotence whenever all alias keys in
the tree are already resolved to canonical names — "including re-coercion of
quoted strings".  Under `personModel`, the key `name` is canonical (it
resolves to itself), yet on the doubly-quoted string value `""a""` the
string-typed coercion strips one quote layer per pass: the first application
yields `"a"` and the second `a`, so the second application is not a no-op. -/
theorem c7_requote_not_idempotent :
    (∀ e ∈ [("name", Value.str "\"\"a\"\"")], resolveKey personModel e.1 = e.1) ∧
    _apply_model_to_dict personModel (_apply_model_to_dict personModel
        [("name", Value.str "\"\"a\"\"")])
      ≠ _apply_model_to_dict personModel [("name", Value.str "\"\"a\"\"")] := by
  constructor
  · intro e he
    rw [List.mem_singleton.mp he]
    rfl
  · have h1 : _apply_model_to_dict personModel [("name", Value.str "\"\"a\"\"")]
        = [("name", Value.str "\"a\"")] := by
      simp [_apply_model_to_dict, applyGo, applyEntryValue, coerceScalar,
        resolveKey, aliasGet, assocGet, _parse_typed_value, pyStr, pyStrip,
        pyRstrip, isPySpace, dictInsert, personModel]
    have h2 : _apply_model_to_dict personModel [("name", Value.str "\"a\"")]
        = [("name", Value.str "a")] := by
      simp [_apply_model_to_dict, applyGo, applyEntryValue, coerceScalar,
        resolveKey, aliasGet, assocGet, _parse_typed_value, pyStr, pyStrip,
        pyRstrip, isPySpace, dictInsert, personModel]
    rw [h1, h2]
    decide

/-- C7 (amended): the Model Application Engine is idempotent on stable
trees — trees whose keys are canonical (each resolves to itself) and
pairwise distinct at every nesting level, whose string values at fields of
string-like declared type gain nothing from one more strip/unquote pass
(in particular, no doubly-quoted strings), and with no NaN float or
NaN-denoting string at a float-typed field (Python's `float('nan')`
succeeds, and a second application re-coerces `str(nan)` into a fresh `nan`
that compares unequal to the first, `nan != nan`; the exclusion is what
keeps equality of the embedding aligned with Python `==`).  Typed
re-coercion of already coerced ints, finite and infinite floats, bools,
dates and datetimes is covered by the proof: those round-trip through
`str()` exactly. -/
theorem c7_apply_model_idempotent (m : ModelDefinition)
    (d : List (String × Value)) (h : treeStable m d = true) :
    _apply_model_to_dict m (_apply_model_to_dict m d)
      = _apply_model_to_dict m d :=
  applyIdemAux m (sizeOf d) d (Nat.le_refl _) h

/-- C7 witness: a concrete stable tree under `personModel` — a singly-quoted
string at the string-typed field `name` and an untyped integer (no
doubly-quoted strings, no NaN anywhere) — on which the amended theorem
applies. -/
theorem c7_apply_model_idempotent_witness :
    treeStable personModel
        [("name", Value.str "\"x\""), ("age", Value.int 3)] = true ∧
    _apply_model_to_dict personModel (_apply_model_to_dict personModel
        [("name", Value.str "\"x\""), ("age", Value.int 3)])
      = _apply_model_to_dict personModel
          [("name", Value.str "\"x\""), ("age", Value.int 3)] := by
  have h : treeStable personModel
      [("name", Value.str "\"x\""), ("age", Value.int 3)] = true := by
    simp [treeStable, valStable, resolveKey, aliasGet, assocGet, personModel,
      fieldStringish, strCoerce, pyStrip, pyRstrip, isPySpace]
  exact ⟨h, c7_apply_model_idempotent personModel _ h⟩

end FlowDoc
